import Mathlib

/-!
Verification of the comment-detection and notice-rewrite engine of the
copyrighter tool (`main.go`).  The program is embedded shallowly: Go strings
become `List Char`, the helpers from Go's `strings` package used by the code
(`Split` on a newline, `Join`, `TrimSpace`, `TrimPrefix`, `HasPrefix`,
`Contains`, `ToLower`, `ReplaceAll` with pattern `"\n"`) are defined below
over `List Char`, and the two core functions `firstComment` and `process`
are translated line by line from the source.
-/

namespace Copyrighter

/-- Go strings are modelled as lists of characters. -/
abbrev Str := List Char

/-- The one-character newline string `"\n"`. -/
def nl : Str := ['\n']

/-- The two-character string `"\r\n"`. -/
def crlf : Str := ['\r', '\n']

/-- Whitespace predicate used by Go's `strings.TrimSpace` (ASCII range;
the Unicode-only space code points are outside the model). -/
def goIsSpace (c : Char) : Bool :=
  c == ' ' || c == '\t' || c == '\n' || c == '\x0b' || c == '\x0c' || c == '\r'

/-- Remove leading whitespace. -/
def trimLeft : Str → Str
  | [] => []
  | c :: rest => if goIsSpace c then trimLeft rest else c :: rest

/-- Remove trailing whitespace. -/
def trimRight (s : Str) : Str := (trimLeft s.reverse).reverse

/-- Go `strings.TrimSpace`. -/
def trimSpace (s : Str) : Str := trimRight (trimLeft s)

/-- Go `strings.TrimPrefix`: drop `pre` when it is literally a prefix,
otherwise return the string unchanged. -/
def trimPre (s pre : Str) : Str :=
  if pre.isPrefixOf s then s.drop pre.length else s

/-- Go `strings.Contains`. -/
def containsStr : Str → Str → Bool
  | [], sub => sub.isEmpty
  | c :: rest, sub => sub.isPrefixOf (c :: rest) || containsStr rest sub

/-- Go `strings.ToLower` (ASCII case mapping suffices for the model). -/
def toLowerStr (s : Str) : Str := s.map Char.toLower

/-- Go `strings.Split(source, "\n")`. -/
def splitNL : Str → List Str
  | [] => [[]]
  | c :: rest =>
    if c = '\n' then [] :: splitNL rest
    else
      match splitNL rest with
      | [] => [[c]]
      | l :: ls => (c :: l) :: ls

/-- Go `strings.Join(parts, sep)`. -/
def joinSep (sep : Str) : List Str → Str
  | [] => []
  | [s] => s
  | s :: rest => s ++ sep ++ joinSep sep rest

/-- Join with `"\n"`, the inverse of `splitNL`. -/
def joinNL (ls : List Str) : Str := joinSep nl ls

/-- The substring `"copyright"` that `process` looks for. -/
def copyrightStr : Str := "copyright".data

/-- The comment markers of a language (struct `CommentMarkers` in `main.go`). -/
structure CommentMarkers where
  single : Str
  multiBegin : Str
  multiEnd : Str
deriving DecidableEq, Repr

/-- Entry of the `languages` map for `.go` files: `{"//", "/*", "*/"}`. -/
def goMarkers : CommentMarkers :=
  { single := "//".data, multiBegin := "/*".data, multiEnd := "*/".data }

/-- Entry of the `languages` map for `.py` files: `{"#", "", ""}`. -/
def pyMarkers : CommentMarkers :=
  { single := "#".data, multiBegin := [], multiEnd := [] }

/-- Entry of the `languages` map for `.css` files: `{"", "/*", "*/"}`. -/
def cssMarkers : CommentMarkers :=
  { single := [], multiBegin := "/*".data, multiEnd := "*/".data }

/-- The `languages` table of `main.go` (first variant), keyed by extension. -/
def languages : List (String × CommentMarkers) :=
  [ (".c", goMarkers), (".cpp", goMarkers), (".cs", goMarkers),
    (".css", cssMarkers), (".go", goMarkers),
    (".html", { single := [], multiBegin := "<!--".data, multiEnd := "-->".data }),
    (".java", goMarkers), (".js", goMarkers), (".php", goMarkers),
    (".ps1", { single := "#".data, multiBegin := "<#".data, multiEnd := "#>".data }),
    (".py", pyMarkers), (".sh", pyMarkers),
    (".sql", { single := "--".data, multiBegin := "/*".data, multiEnd := "*/".data }),
    (".ts", goMarkers),
    (".xml", { single := [], multiBegin := "<!--".data, multiEnd := "-->".data }),
    (".yaml", pyMarkers) ]

/-- Scanner phase of the loop in `firstComment`: the pair of mutable
booleans `inMulti`/`inSingle` together with the `fromLine` they guard. -/
inductive FcPhase where
  | start : FcPhase
  | insingle : Nat → FcPhase
  | inmulti : Nat → FcPhase
deriving DecidableEq, Repr

/-- The `fromLine` variable as it stands in a given phase (0 before any
comment opened, the opener's index afterwards). -/
def FcPhase.fromLine : FcPhase → Nat
  | .start => 0
  | .insingle f => f
  | .inmulti f => f

/-- Slice `lines[a:b]` of Go. -/
def sliceGo (a b : Nat) (xs : List Str) : List Str := (xs.drop a).take (b - a)

/-- The per-line rewrite `firstComment` applies to a detected single-style
run: `TrimPrefix(line, lang.single)` then `TrimPrefix(line, " ")`. -/
def stripRun (lang : CommentMarkers) (ls : List Str) : List Str :=
  ls.map (fun s => trimPre (trimPre s lang.single) [' '])

/-- The loop of `firstComment` in `main.go` (lines 215-250).  `all` is the
full `lines` slice, the first list argument the lines not yet scanned,
`l` the loop index.  Go's `l == len(lines)-1` test is the `rest.isEmpty`
test here, since `rest` is always `all.drop (l+1)` at the call sites. -/
def fcAux (lang : CommentMarkers) (all : List Str) : List Str → Nat → FcPhase → Str × Bool × Nat × Nat
  | [], _, ph => ([], false, ph.fromLine, 0)
  | line :: rest, l, .start =>
    if !lang.multiBegin.isEmpty && trimSpace line == lang.multiBegin then
      fcAux lang all rest (l + 1) (.inmulti l)
    else if !lang.single.isEmpty && lang.single.isPrefixOf (trimSpace line) then
      fcAux lang all rest (l + 1) (.insingle l)
    else
      fcAux lang all rest (l + 1) .start
  | line :: rest, l, .insingle f =>
    if !(lang.single.isPrefixOf (trimSpace line)) then
      (joinNL (stripRun lang (sliceGo f l all)), true, f, l)
    else if rest.isEmpty then
      (joinNL (stripRun lang (sliceGo f (l + 1) all)), true, f, l + 1)
    else
      fcAux lang all rest (l + 1) (.insingle f)
  | line :: rest, l, .inmulti f =>
    if trimSpace line == lang.multiEnd then
      (joinNL (sliceGo (f + 1) l all), true, f, l + 1)
    else
      fcAux lang all rest (l + 1) (.inmulti f)

/-- `firstComment` of `main.go`: returns `(comment, ok, fromLine, toLine)`. -/
def firstComment (source : Str) (lang : CommentMarkers) : Str × Bool × Nat × Nat :=
  fcAux lang (splitNL source) (splitNL source) 0 .start

/-- The line separator `process` picks once per file (lines 170-173). -/
def chooseSep (source : Str) : Str :=
  if containsStr source crlf then crlf else nl

/-- `strings.ReplaceAll(notice, "\n", lineSep)` as applied by `process`
(lines 185-187); the pattern is the single character `'\n'`, so the
replacement is split-on-newline joined with the separator. -/
def prepNotice (sep notice : Str) : Str :=
  if sep == nl then notice else joinSep sep (splitNL notice)

/-- The `newComment` string built by `process` (lines 188-193); `notice`
here is the already line-separator-adjusted notice. -/
def mkComment (lang : CommentMarkers) (sep notice : Str) : Str :=
  if !lang.multiBegin.isEmpty then
    lang.multiBegin ++ sep ++ notice ++ sep ++ lang.multiEnd ++ sep
  else
    lang.single ++ [' '] ++ joinSep (sep ++ lang.single ++ [' ']) (splitNL notice) ++ sep

/-- The `fromLine`/`toLine` pair after the copyright-keyword adjustment of
`process` (lines 164-168): a detected comment lacking the substring
`"copyright"` is treated as no detection. -/
def scanAdjusted (source : Str) (lang : CommentMarkers) : Nat × Nat :=
  let r := firstComment source lang
  if r.2.1 && !(containsStr (toLowerStr r.1) copyrightStr) then (0, 0)
  else (r.2.2.1, r.2.2.2)

/-- One emission loop of `process` (lines 177-182 and 202-207): write each
line, followed by `"\n"` whenever its index is below `n - 1` where `n` is
the total line count. -/
def emitFrom (n : Nat) : Nat → List Str → Str
  | _, [] => []
  | i, line :: rest => line ++ (if i < n - 1 then nl else []) ++ emitFrom n (i + 1) rest

/-- The bytes `process` writes once it decides to rewrite (lines 170-207). -/
def buildOut (source : Str) (lang : CommentMarkers) (notice : Str) : Str :=
  let ft := scanAdjusted source lang
  let f := ft.1
  let t := ft.2
  let sep := chooseSep source
  let lines := splitNL source
  let n := lines.length
  let pad := if f == 0 && t == 0 && !lines.isEmpty && !(lines.headD []).isEmpty then sep else []
  emitFrom n 0 (lines.take f) ++ mkComment lang sep (prepNotice sep notice) ++ pad ++ emitFrom n t (lines.drop t)

/-- `process` of `main.go`: `none` models the `changed = false` early return
(nothing written), `some out` the rewritten bytes with `changed = true`.
I/O errors of the reader/writer are outside the pure model. -/
def process (source : Str) (lang : CommentMarkers) (notice : Str) : Option Str :=
  let r := firstComment source lang
  if r.2.1 && r.1 == notice then none
  else some (buildOut source lang notice)

/-- One full detect-then-apply cycle on a file's bytes: the orchestrator
writes `process`'s output back when `changed`, else keeps the file. -/
def cycle (lang : CommentMarkers) (notice source : Str) : Str :=
  (process source lang notice).getD source

/-- The start-phase opening condition of the scanner loop: the line would
enter block or line-comment mode. -/
def opensLine (lang : CommentMarkers) (line : Str) : Bool :=
  (!lang.multiBegin.isEmpty && trimSpace line == lang.multiBegin)
    || (!lang.single.isEmpty && lang.single.isPrefixOf (trimSpace line))

/-- A string free of newline characters. -/
def noNL (s : Str) : Prop := '\n' ∉ s

instance noNL_dec (s : Str) : Decidable (noNL s) :=
  inferInstanceAs (Decidable ('\n' ∉ s))

/-- Checker that every `'\n'` is immediately preceded by `'\r'`; the
boolean argument records whether the previous character was `'\r'`. -/
def lfOkAux (p : Bool) : Str → Bool
  | [] => true
  | c :: rest => (if c = '\n' then p else true) && lfOkAux (c == '\r') rest

/-- Every newline of the string is a `"\r\n"` pair. -/
def crlfOnly (s : Str) : Bool := lfOkAux false s

/-- Right-trim of trailing space characters, as the spec's words for claim
C1 describe the decoding of block-comment lines (the code does not do
this; the definition exists only to state the counterexample). -/
def specRTrim (s : Str) : Str := (s.reverse.dropWhile (· == ' ')).reverse

/-- Phase invariant: a non-start phase records the index of a line that
passed the opening test. -/
def phOpens (lang : CommentMarkers) (all : List Str) : FcPhase → Prop
  | .start => True
  | .insingle g => opensLine lang (all.getD g []) = true
  | .inmulti g => opensLine lang (all.getD g []) = true

/-! ### Decomposition of the writer output -/

/-- The part of the `process` output before the new comment. -/
def preOf (source : Str) (lang : CommentMarkers) : Str :=
  emitFrom (splitNL source).length 0 ((splitNL source).take (scanAdjusted source lang).1)

/-- The optional blank separator line emitted by `process` (line 198-200). -/
def padOf (source : Str) (lang : CommentMarkers) : Str :=
  if (scanAdjusted source lang).1 == 0 && (scanAdjusted source lang).2 == 0
      && !(splitNL source).isEmpty && !((splitNL source).headD []).isEmpty
  then chooseSep source else []

/-- The part of the `process` output after the new comment and separator. -/
def sufOf (source : Str) (lang : CommentMarkers) : Str :=
  emitFrom (splitNL source).length (scanAdjusted source lang).2
    ((splitNL source).drop (scanAdjusted source lang).2)

/-! ### Hygiene conditions under which the written header re-scans to the
exact notice -/

/-- The block markers survive a re-scan: non-empty `multiBegin`, and both
markers are whitespace-trimmed, newline-free strings.  All block-capable
entries of the `languages` table satisfy this. -/
def blockHygiene (lang : CommentMarkers) : Prop :=
  lang.multiBegin ≠ [] ∧ trimSpace lang.multiBegin = lang.multiBegin
    ∧ noNL lang.multiBegin ∧ trimSpace lang.multiEnd = lang.multiEnd
    ∧ noNL lang.multiEnd

instance blockHygiene_dec (lang : CommentMarkers) : Decidable (blockHygiene lang) :=
  inferInstanceAs (Decidable (_ ∧ _ ∧ _ ∧ _ ∧ _))

/-- No line of the notice closes the block early. -/
def noticeBlockSafe (lang : CommentMarkers) (notice : Str) : Prop :=
  ∀ c ∈ splitNL notice, ¬ trimSpace c = lang.multiEnd

instance noticeBlockSafe_dec (lang : CommentMarkers) (notice : Str) :
    Decidable (noticeBlockSafe lang notice) :=
  inferInstanceAs (Decidable (∀ c ∈ splitNL notice, ¬ trimSpace c = lang.multiEnd))

/-- Line-comment emission applies: no block marker, a non-empty newline-free
line prefix.  All line-only entries of the `languages` table satisfy this. -/
def lineHygiene (lang : CommentMarkers) : Prop :=
  lang.multiBegin = [] ∧ lang.single ≠ [] ∧ noNL lang.single

instance lineHygiene_dec (lang : CommentMarkers) : Decidable (lineHygiene lang) :=
  inferInstanceAs (Decidable (_ ∧ _ ∧ _))

/-- Every emitted header line still starts with the prefix after trimming
(true whenever the prefix has no whitespace at its ends). -/
def noticeLineSafe (lang : CommentMarkers) (notice : Str) : Prop :=
  ∀ c ∈ splitNL notice,
    lang.single.isPrefixOf (trimSpace (lang.single ++ [' '] ++ c)) = true

instance noticeLineSafe_dec (lang : CommentMarkers) (notice : Str) :
    Decidable (noticeLineSafe lang notice) :=
  inferInstanceAs (Decidable (∀ c ∈ splitNL notice, _ = true))

/-- Whether the last character of `a` is a carriage return (`p` when `a` is
empty). -/
def endCR (p : Bool) (a : Str) : Bool :=
  match a.getLast? with
  | some c => c == '\r'
  | none => p

-- Sanity checks against the repository's own test vectors (Test_FirstComment).
example : firstComment "\n/*\nRight\n*/\n// Wrong\npackage x\n".data goMarkers
    = ("Right".data, true, 1, 4) := by decide
example : firstComment "/*\nRight\n Right\n*/".data goMarkers
    = ("Right\n Right".data, true, 0, 4) := by decide
example : firstComment "/* Wrong */\n// Right\npackage example\n\t".data goMarkers
    = ("Right".data, true, 1, 2) := by decide
example : firstComment "\n// Right\n//  Right\n\t".data goMarkers
    = ("Right\n Right".data, true, 1, 3) := by decide
example : firstComment "/*\npackage example\n\t".data goMarkers
    = ([], false, 0, 0) := by decide
example : firstComment "package example // Wrong\n\t".data goMarkers
    = ([], false, 0, 0) := by decide
example : process "".data goMarkers "Copyright notice".data
    = some "/*\nCopyright notice\n*/\n".data := by decide
example : process "// Old copyright notice\npackage example\n\nvar x\n".data goMarkers
      "Copyright notice".data
    = some "/*\nCopyright notice\n*/\npackage example\n\nvar x\n".data := by decide

/-! ### Basic facts about `splitNL`, `joinNL` and `emitFrom` -/

theorem splitNL_ne_nil (s : Str) : splitNL s ≠ [] := by
  induction s with
  | nil => simp [splitNL]
  | cons c t ih =>
    simp only [splitNL]
    split
    · simp
    · cases h : splitNL t with
      | nil => simp
      | cons l ls => simp

theorem splitNL_cons_nl (t : Str) : splitNL ('\n' :: t) = [] :: splitNL t := by
  simp [splitNL]

theorem splitNL_cons_not_nl {c : Char} (t : Str) (hc : ¬ c = '\n') :
    splitNL (c :: t) = (c :: (splitNL t).headD []) :: (splitNL t).tail := by
  simp only [splitNL, if_neg hc]
  cases h : splitNL t with
  | nil => exact absurd h (splitNL_ne_nil t)
  | cons l ls => simp

theorem splitNL_of_noNL {s : Str} (h : noNL s) : splitNL s = [s] := by
  induction s with
  | nil => simp [splitNL]
  | cons c t ih =>
    have hc : ¬ c = '\n' := fun hh => h (hh ▸ List.mem_cons_self c t)
    have ht : noNL t := fun hm => h (List.mem_cons_of_mem c hm)
    rw [splitNL_cons_not_nl t hc, ih ht]
    simp

theorem noNL_of_mem_splitNL {s : Str} {x : Str} (hx : x ∈ splitNL s) : noNL x := by
  induction s generalizing x with
  | nil =>
    simp [splitNL] at hx
    simp [hx, noNL]
  | cons c t ih =>
    by_cases hc : c = '\n'
    · subst hc
      rw [splitNL_cons_nl] at hx
      rcases List.mem_cons.mp hx with h | h
      · simp [h, noNL]
      · exact ih h
    · cases hsp : splitNL t with
      | nil => exact absurd hsp (splitNL_ne_nil t)
      | cons l ls =>
        rw [splitNL_cons_not_nl t hc, hsp] at hx
        simp only [List.headD, List.tail] at hx
        have hl : noNL l := ih (by rw [hsp]; exact List.mem_cons_self l ls)
        rcases List.mem_cons.mp hx with h | h
        · subst h
          intro hmem
          rcases List.mem_cons.mp hmem with h1 | h1
          · exact hc h1.symm
          · exact hl h1
        · exact ih (by rw [hsp]; exact List.mem_cons_of_mem l h)

theorem joinSep_cons_cons (sep : Str) (a b : Str) (L : List Str) :
    joinSep sep (a :: b :: L) = a ++ sep ++ joinSep sep (b :: L) := rfl

theorem joinNL_splitNL (s : Str) : joinNL (splitNL s) = s := by
  induction s with
  | nil => simp [splitNL, joinNL, joinSep]
  | cons c t ih =>
    by_cases hc : c = '\n'
    · subst hc
      rw [splitNL_cons_nl]
      cases hsp : splitNL t with
      | nil => exact absurd hsp (splitNL_ne_nil t)
      | cons l ls =>
        rw [hsp] at ih
        rw [joinNL, joinSep_cons_cons]
        simpa [nl, joinNL] using ih
    · cases hsp : splitNL t with
      | nil => exact absurd hsp (splitNL_ne_nil t)
      | cons l ls =>
        rw [splitNL_cons_not_nl t hc, hsp]
        rw [hsp] at ih
        cases ls with
        | nil =>
          simp only [List.headD, List.tail]
          simpa [joinNL, joinSep] using congrArg (c :: ·) ih
        | cons u us =>
          simp only [List.headD, List.tail]
          simp only [joinNL, joinSep_cons_cons] at ih ⊢
          simpa using congrArg (c :: ·) ih

theorem splitNL_append_nl (a b : Str) : splitNL (a ++ nl ++ b) = splitNL a ++ splitNL b := by
  induction a with
  | nil => simp [nl, splitNL_cons_nl, splitNL]
  | cons c a' ih =>
    by_cases hc : c = '\n'
    · subst hc
      have : ('\n' :: a') ++ nl ++ b = '\n' :: (a' ++ nl ++ b) := by simp
      rw [this, splitNL_cons_nl, splitNL_cons_nl, ih]
      simp
    · have hstep : (c :: a') ++ nl ++ b = c :: (a' ++ nl ++ b) := by simp
      rw [hstep, splitNL_cons_not_nl _ hc, splitNL_cons_not_nl _ hc, ih]
      cases hsp : splitNL a' with
      | nil => exact absurd hsp (splitNL_ne_nil a')
      | cons l ls => simp

theorem splitNL_noNL_append {x : Str} (b : Str) (hx : noNL x) :
    splitNL (x ++ nl ++ b) = x :: splitNL b := by
  rw [splitNL_append_nl, splitNL_of_noNL hx]
  simp

theorem splitNL_joinNL {L : List Str} (h : ∀ x ∈ L, noNL x) (hne : L ≠ []) :
    splitNL (joinNL L) = L := by
  induction L with
  | nil => exact absurd rfl hne
  | cons x L' ih =>
    cases L' with
    | nil =>
      show splitNL (joinNL [x]) = [x]
      have : joinNL [x] = x := rfl
      rw [this, splitNL_of_noNL (h x (List.mem_cons_self x []))]
    | cons y L'' =>
      rw [joinNL, joinSep_cons_cons]
      rw [splitNL_noNL_append _ (h x (List.mem_cons_self x _))]
      have := ih (fun z hz => h z (List.mem_cons_of_mem x hz)) (by simp)
      rw [joinNL] at this
      rw [this]

theorem splitNL_concatNL {L : List Str} (rest : Str) (h : ∀ x ∈ L, noNL x) :
    splitNL ((L.map (fun x => x ++ nl)).flatten ++ rest) = L ++ splitNL rest := by
  induction L with
  | nil => simp
  | cons x L' ih =>
    have hx : noNL x := h x (List.mem_cons_self x L')
    have hstep : ((List.map (fun x => x ++ nl) (x :: L')).flatten ++ rest)
        = x ++ nl ++ ((L'.map (fun x => x ++ nl)).flatten ++ rest) := by
      simp [List.append_assoc]
    rw [hstep, splitNL_noNL_append _ hx, ih (fun z hz => h z (List.mem_cons_of_mem x hz))]
    simp

theorem emitFrom_cons (n i : Nat) (line : Str) (rest : List Str) :
    emitFrom n i (line :: rest)
      = line ++ (if i < n - 1 then nl else []) ++ emitFrom n (i + 1) rest := rfl

theorem emitFrom_eq_joinNL {n : Nat} : ∀ (ls : List Str) (i : Nat), i + ls.length = n →
    emitFrom n i ls = joinNL ls := by
  intro ls
  induction ls with
  | nil => intro i _; rfl
  | cons line rest ih =>
    intro i hlen
    cases rest with
    | nil =>
      have hi : i = n - 1 := by simp at hlen; omega
      have hno : ¬ i < n - 1 := by omega
      rw [emitFrom_cons, if_neg hno]
      simp [emitFrom, joinNL, joinSep]
    | cons r rs =>
      have hlt : i < n - 1 := by simp at hlen; omega
      have hrec := ih (i + 1) (by simp at hlen ⊢; omega)
      rw [emitFrom_cons, if_pos hlt, hrec]
      rfl

theorem emitFrom_eq_concat {n : Nat} : ∀ (ls : List Str) (i : Nat), i + ls.length < n →
    emitFrom n i ls = (ls.map (fun x => x ++ nl)).flatten := by
  intro ls
  induction ls with
  | nil => intro i _; rfl
  | cons line rest ih =>
    intro i hlen
    have hlt : i < n - 1 := by simp at hlen; omega
    have := ih (i + 1) (by simp at hlen ⊢; omega)
    simp [emitFrom, if_pos hlt, this]

theorem joinNL_take_drop : ∀ (f : Nat) (L : List Str), f < L.length →
    joinNL L = ((L.take f).map (fun x => x ++ nl)).flatten ++ joinNL (L.drop f) := by
  intro f
  induction f with
  | zero => intro L _; simp
  | succ f ih =>
    intro L hf
    cases L with
    | nil => simp at hf
    | cons x L' =>
      have hf' : f < L'.length := by simp at hf; omega
      have hL' : L' ≠ [] := by
        intro h
        rw [h] at hf'
        simp at hf'
      cases L' with
      | nil => exact absurd rfl hL'
      | cons y L'' =>
        rw [List.take_succ_cons, List.drop_succ_cons]
        rw [joinNL, joinSep_cons_cons, ← joinNL]
        rw [ih (y :: L'') hf']
        simp [List.append_assoc]

theorem joinNL_drop_suffix : ∀ (t : Nat) (L : List Str), joinNL (L.drop t) <:+ joinNL L := by
  intro t
  induction t with
  | zero => intro L; simp
  | succ t ih =>
    intro L
    cases L with
    | nil => simp
    | cons x L' =>
      rw [List.drop_succ_cons]
      refine (ih L').trans ?_
      cases L' with
      | nil => simp [joinNL, joinSep]
      | cons y L'' =>
        show joinSep nl (y :: L'') <:+ joinSep nl (x :: y :: L'')
        rw [joinSep_cons_cons]
        exact List.suffix_append (x ++ nl) _

theorem getD_eq_headD_drop : ∀ (L : List Str) (i : Nat), L.getD i [] = (L.drop i).headD [] := by
  intro L
  induction L with
  | nil => intro i; cases i <;> simp
  | cons x L' ih =>
    intro i
    cases i with
    | zero => simp
    | succ j =>
      simp only [List.getD_cons_succ, List.drop_succ_cons]
      exact ih j

theorem drop_cons_next {all : List Str} {l : Nat} {line : Str} {rest : List Str}
    (h : all.drop l = line :: rest) : all.drop (l + 1) = rest := by
  have h1 : all.drop (l + 1) = (all.drop l).drop 1 := by
    rw [List.drop_drop]
  rw [h1, h]
  rfl

theorem getD_of_drop {all : List Str} {l : Nat} {line : Str} {rest : List Str}
    (h : all.drop l = line :: rest) : all.getD l [] = line := by
  rw [getD_eq_headD_drop, h]
  rfl

/-! ### Facts about the scanner loop `fcAux` -/

theorem fcAux_nil (lang : CommentMarkers) (all : List Str) (l : Nat) (ph : FcPhase) :
    fcAux lang all [] l ph = ([], false, ph.fromLine, 0) := rfl

theorem fcAux_start_step (lang : CommentMarkers) (all : List Str) (line : Str)
    (rest : List Str) (l : Nat) :
    fcAux lang all (line :: rest) l .start =
      if !lang.multiBegin.isEmpty && trimSpace line == lang.multiBegin then
        fcAux lang all rest (l + 1) (.inmulti l)
      else if !lang.single.isEmpty && lang.single.isPrefixOf (trimSpace line) then
        fcAux lang all rest (l + 1) (.insingle l)
      else
        fcAux lang all rest (l + 1) .start := rfl

theorem fcAux_insingle_step (lang : CommentMarkers) (all : List Str) (line : Str)
    (rest : List Str) (l f : Nat) :
    fcAux lang all (line :: rest) l (.insingle f) =
      if !(lang.single.isPrefixOf (trimSpace line)) then
        (joinNL (stripRun lang (sliceGo f l all)), true, f, l)
      else if rest.isEmpty then
        (joinNL (stripRun lang (sliceGo f (l + 1) all)), true, f, l + 1)
      else
        fcAux lang all rest (l + 1) (.insingle f) := rfl

theorem fcAux_inmulti_step (lang : CommentMarkers) (all : List Str) (line : Str)
    (rest : List Str) (l f : Nat) :
    fcAux lang all (line :: rest) l (.inmulti f) =
      if trimSpace line == lang.multiEnd then
        (joinNL (sliceGo (f + 1) l all), true, f, l + 1)
      else
        fcAux lang all rest (l + 1) (.inmulti f) := rfl

theorem opensLine_false_guards {lang : CommentMarkers} {x : Str}
    (h : opensLine lang x = false) :
    (!lang.multiBegin.isEmpty && trimSpace x == lang.multiBegin) = false
      ∧ (!lang.single.isEmpty && lang.single.isPrefixOf (trimSpace x)) = false := by
  have := h
  simp only [opensLine, Bool.or_eq_false_iff] at this
  exact this

theorem fcAux_start_skip {lang : CommentMarkers} {all : List Str} :
    ∀ (pre : List Str) (R : List Str) (l : Nat), (∀ x ∈ pre, opensLine lang x = false) →
    fcAux lang all (pre ++ R) l .start = fcAux lang all R (l + pre.length) .start := by
  intro pre
  induction pre with
  | nil => intro R l _; simp
  | cons x pre' ih =>
    intro R l h
    obtain ⟨h1, h2⟩ := opensLine_false_guards (h x (List.mem_cons_self x pre'))
    rw [List.cons_append, fcAux_start_step, h1, h2]
    simp only [Bool.false_eq_true, if_false]
    rw [ih R (l + 1) (fun z hz => h z (List.mem_cons_of_mem x hz))]
    congr 1
    simp
    omega

theorem fcAux_insingle_from {lang : CommentMarkers} {all : List Str} :
    ∀ (R : List Str) (l g : Nat), (fcAux lang all R l (.insingle g)).2.2.1 = g := by
  intro R
  induction R with
  | nil => intro l g; rfl
  | cons line rest ih =>
    intro l g
    rw [fcAux_insingle_step]
    split
    · rfl
    · split
      · rfl
      · exact ih (l + 1) g

theorem fcAux_inmulti_from {lang : CommentMarkers} {all : List Str} :
    ∀ (R : List Str) (l g : Nat), (fcAux lang all R l (.inmulti g)).2.2.1 = g := by
  intro R
  induction R with
  | nil => intro l g; rfl
  | cons line rest ih =>
    intro l g
    rw [fcAux_inmulti_step]
    split
    · rfl
    · exact ih (l + 1) g

theorem fcAux_false_shape {lang : CommentMarkers} {all : List Str} :
    ∀ (R : List Str) (l : Nat) (ph : FcPhase),
    (fcAux lang all R l ph).2.1 = false →
    (fcAux lang all R l ph).1 = [] ∧ (fcAux lang all R l ph).2.2.2 = 0 := by
  intro R
  induction R with
  | nil => intro l ph _; exact ⟨rfl, rfl⟩
  | cons line rest ih =>
    intro l ph hf
    cases ph with
    | start =>
      rw [fcAux_start_step] at hf ⊢
      split at hf
      · rw [if_pos (by assumption)]
        exact ih _ _ hf
      · split at hf
        · rw [if_neg (by assumption), if_pos (by assumption)]
          exact ih _ _ hf
        · rw [if_neg (by assumption), if_neg (by assumption)]
          exact ih _ _ hf
    | insingle g =>
      rw [fcAux_insingle_step] at hf ⊢
      split at hf
      · simp at hf
      · split at hf
        · simp at hf
        · rw [if_neg (by assumption), if_neg (by assumption)]
          exact ih _ _ hf
    | inmulti g =>
      rw [fcAux_inmulti_step] at hf ⊢
      split at hf
      · simp at hf
      · rw [if_neg (by assumption)]
        exact ih _ _ hf

theorem fcAux_false_opens {lang : CommentMarkers} {all : List Str} :
    ∀ (R : List Str) (l : Nat) (ph : FcPhase), R = all.drop l → phOpens lang all ph →
    (fcAux lang all R l ph).2.1 = false →
    (fcAux lang all R l ph).2.2.1 = 0
      ∨ opensLine lang (all.getD (fcAux lang all R l ph).2.2.1 []) = true := by
  intro R
  induction R with
  | nil =>
    intro l ph _ hinv _
    cases ph with
    | start => exact Or.inl rfl
    | insingle g => exact Or.inr hinv
    | inmulti g => exact Or.inr hinv
  | cons line rest ih =>
    intro l ph halign hinv hf
    have hrest : rest = all.drop (l + 1) := (drop_cons_next halign.symm).symm
    have hline : all.getD l [] = line := getD_of_drop halign.symm
    cases ph with
    | start =>
      rw [fcAux_start_step] at hf ⊢
      split at hf
      · rw [if_pos (by assumption)] at *
        refine ih (l + 1) (.inmulti l) hrest ?_ hf
        show opensLine lang (all.getD l []) = true
        rw [hline]
        simp only [opensLine, Bool.or_eq_true]
        exact Or.inl (by assumption)
      · split at hf
        · rw [if_neg (by assumption), if_pos (by assumption)]
          refine ih (l + 1) (.insingle l) hrest ?_ hf
          show opensLine lang (all.getD l []) = true
          rw [hline]
          simp only [opensLine, Bool.or_eq_true]
          exact Or.inr (by assumption)
        · rw [if_neg (by assumption), if_neg (by assumption)]
          exact ih (l + 1) .start hrest trivial hf
    | insingle g =>
      rw [fcAux_insingle_step] at hf ⊢
      split at hf
      · simp at hf
      · split at hf
        · simp at hf
        · rw [if_neg (by assumption), if_neg (by assumption)]
          exact ih (l + 1) (.insingle g) hrest hinv hf
    | inmulti g =>
      rw [fcAux_inmulti_step] at hf ⊢
      split at hf
      · simp at hf
      · rw [if_neg (by assumption)]
        exact ih (l + 1) (.inmulti g) hrest hinv hf

theorem fcAux_start_nonopen {lang : CommentMarkers} {all : List Str} :
    ∀ (R : List Str) (l : Nat), R = all.drop l →
    ∀ i, l ≤ i → i < (fcAux lang all R l .start).2.2.1 →
    opensLine lang (all.getD i []) = false := by
  intro R
  induction R with
  | nil =>
    intro l _ i hli hif
    rw [fcAux_nil] at hif
    simp [FcPhase.fromLine] at hif
  | cons line rest ih =>
    intro l halign i hli hif
    have hrest : rest = all.drop (l + 1) := (drop_cons_next halign.symm).symm
    have hline : all.getD l [] = line := getD_of_drop halign.symm
    rw [fcAux_start_step] at hif
    split at hif
    · rw [fcAux_inmulti_from] at hif
      omega
    · split at hif
      · rw [fcAux_insingle_from] at hif
        omega
      · rcases Nat.lt_or_ge l i with hlt | hge
        · exact ih (l + 1) hrest i hlt hif
        · have : i = l := by omega
          subst this
          rw [hline]
          simp only [opensLine, Bool.or_eq_false_iff]
          constructor
          · exact Bool.eq_false_iff.mpr (by assumption)
          · exact Bool.eq_false_iff.mpr (by assumption)

theorem lt_length_of_drop_cons {all : List Str} {l : Nat} {line : Str} {rest : List Str}
    (h : all.drop l = line :: rest) : l < all.length := by
  have := congrArg List.length h
  simp [List.length_drop] at this
  omega

theorem eq_length_of_drop_singleton {all : List Str} {l : Nat} {line : Str}
    (h : all.drop l = [line]) : all.length = l + 1 := by
  have := congrArg List.length h
  simp [List.length_drop] at this
  omega

theorem fcAux_inmulti_run {lang : CommentMarkers} {all : List Str} {closer : Str}
    (hcl : trimSpace closer = lang.multiEnd) :
    ∀ (inner : List Str) (l g : Nat) (rest : List Str),
    (∀ x ∈ inner, ¬ trimSpace x = lang.multiEnd) →
    fcAux lang all (inner ++ closer :: rest) l (.inmulti g)
      = (joinNL (sliceGo (g + 1) (l + inner.length) all), true, g, l + inner.length + 1) := by
  intro inner
  induction inner with
  | nil =>
    intro l g rest _
    rw [List.nil_append, fcAux_inmulti_step, if_pos (by simp [hcl])]
    simp
  | cons x xs ih =>
    intro l g rest h
    have hx : ¬ trimSpace x = lang.multiEnd := h x (List.mem_cons_self x xs)
    rw [List.cons_append, fcAux_inmulti_step, if_neg (by simp [hx])]
    rw [ih (l + 1) g rest (fun z hz => h z (List.mem_cons_of_mem x hz))]
    have harith : l + 1 + xs.length = l + (x :: xs).length := by simp; omega
    rw [harith]

theorem fcAux_insingle_close {lang : CommentMarkers} {all : List Str} {next : Str}
    (hnext : lang.single.isPrefixOf (trimSpace next) = false) :
    ∀ (runT : List Str) (l g : Nat) (rest : List Str),
    (∀ x ∈ runT, lang.single.isPrefixOf (trimSpace x) = true) →
    fcAux lang all (runT ++ next :: rest) l (.insingle g)
      = (joinNL (stripRun lang (sliceGo g (l + runT.length) all)), true, g, l + runT.length) := by
  intro runT
  induction runT with
  | nil =>
    intro l g rest _
    rw [List.nil_append, fcAux_insingle_step, if_pos (by simp [hnext])]
    simp
  | cons x xs ih =>
    intro l g rest h
    have hx := h x (List.mem_cons_self x xs)
    rw [List.cons_append, fcAux_insingle_step, if_neg (by simp [hx])]
    rw [if_neg (by simp)]
    rw [ih (l + 1) g rest (fun z hz => h z (List.mem_cons_of_mem x hz))]
    have harith : l + 1 + xs.length = l + (x :: xs).length := by simp; omega
    rw [harith]

theorem fcAux_insingle_eof {lang : CommentMarkers} {all : List Str} :
    ∀ (runT : List Str) (l g : Nat), runT ≠ [] →
    (∀ x ∈ runT, lang.single.isPrefixOf (trimSpace x) = true) →
    fcAux lang all runT l (.insingle g)
      = (joinNL (stripRun lang (sliceGo g (l + runT.length) all)), true, g, l + runT.length) := by
  intro runT
  induction runT with
  | nil => intro l g hne _; exact absurd rfl hne
  | cons x xs ih =>
    intro l g _ h
    have hx := h x (List.mem_cons_self x xs)
    cases xs with
    | nil =>
      rw [fcAux_insingle_step, if_neg (by simp [hx]), if_pos (by simp)]
      simp
    | cons y ys =>
      rw [fcAux_insingle_step, if_neg (by simp [hx]), if_neg (by simp)]
      rw [ih (l + 1) g (by simp) (fun z hz => h z (List.mem_cons_of_mem x hz))]
      have harith : l + 1 + (y :: ys).length = l + (x :: y :: ys).length := by simp; omega
      rw [harith]

theorem fcAux_to_le {lang : CommentMarkers} {all : List Str} :
    ∀ (R : List Str) (l : Nat) (ph : FcPhase), R = all.drop l →
    (fcAux lang all R l ph).2.2.2 ≤ all.length := by
  intro R
  induction R with
  | nil => intro l ph _; exact Nat.zero_le _
  | cons line rest ih =>
    intro l ph halign
    have hrest : rest = all.drop (l + 1) := (drop_cons_next halign.symm).symm
    have hlt : l < all.length := lt_length_of_drop_cons halign.symm
    cases ph with
    | start =>
      rw [fcAux_start_step]
      split
      · exact ih (l + 1) _ hrest
      · split
        · exact ih (l + 1) _ hrest
        · exact ih (l + 1) _ hrest
    | insingle g =>
      rw [fcAux_insingle_step]
      split
      · simpa using Nat.le_of_lt hlt
      · split
        · have hempty : rest = [] := List.isEmpty_iff.mp (by assumption)
          have : all.length = l + 1 := by
            have hd1 : all.drop l = [line] := by rw [← halign, hempty]
            exact eq_length_of_drop_singleton hd1
          simp [this]
        · exact ih (l + 1) _ hrest
    | inmulti g =>
      rw [fcAux_inmulti_step]
      split
      · simpa using hlt
      · exact ih (l + 1) _ hrest

theorem fcAux_from_bound {lang : CommentMarkers} {all : List Str} :
    ∀ (R : List Str) (l : Nat) (ph : FcPhase), R = all.drop l →
    (ph = .start ∨ ph.fromLine < all.length) →
    (fcAux lang all R l ph).2.2.1 = 0 ∨ (fcAux lang all R l ph).2.2.1 < all.length := by
  intro R
  induction R with
  | nil =>
    intro l ph _ hinv
    rcases hinv with h | h
    · subst h; exact Or.inl rfl
    · exact Or.inr h
  | cons line rest ih =>
    intro l ph halign hinv
    have hrest : rest = all.drop (l + 1) := (drop_cons_next halign.symm).symm
    have hlt : l < all.length := lt_length_of_drop_cons halign.symm
    cases ph with
    | start =>
      rw [fcAux_start_step]
      split
      · exact ih (l + 1) _ hrest (Or.inr hlt)
      · split
        · exact ih (l + 1) _ hrest (Or.inr hlt)
        · exact ih (l + 1) _ hrest (Or.inl rfl)
    | insingle g =>
      have hg : g < all.length := by
        rcases hinv with h | h
        · exact absurd h (by simp)
        · exact h
      rw [fcAux_insingle_step]
      split
      · exact Or.inr hg
      · split
        · exact Or.inr hg
        · exact ih (l + 1) _ hrest (Or.inr hg)
    | inmulti g =>
      have hg : g < all.length := by
        rcases hinv with h | h
        · exact absurd h (by simp)
        · exact h
      rw [fcAux_inmulti_step]
      split
      · exact Or.inr hg
      · exact ih (l + 1) _ hrest (Or.inr hg)

theorem fcAux_single_closed {lang : CommentMarkers} (hmb : lang.multiBegin = [])
    {all : List Str} :
    ∀ (R : List Str) (l : Nat) (ph : FcPhase), R = all.drop l →
    (ph = .start ∨ ∃ g, ph = .insingle g) →
    (fcAux lang all R l ph).2.1 = true →
    (fcAux lang all R l ph).2.2.2 = all.length
      ∨ lang.single.isPrefixOf (trimSpace (all.getD (fcAux lang all R l ph).2.2.2 [])) = false := by
  intro R
  induction R with
  | nil =>
    intro l ph _ _ hok
    rw [fcAux_nil] at hok
    simp at hok
  | cons line rest ih =>
    intro l ph halign hph hok
    have hrest : rest = all.drop (l + 1) := (drop_cons_next halign.symm).symm
    have hline : all.getD l [] = line := getD_of_drop halign.symm
    rcases hph with hst | ⟨g, hsg⟩
    · subst hst
      rw [fcAux_start_step] at hok ⊢
      have hmguard : (!lang.multiBegin.isEmpty && trimSpace line == lang.multiBegin) = false := by
        simp [hmb]
      rw [hmguard] at hok ⊢
      simp only [Bool.false_eq_true, if_false] at hok ⊢
      split at hok
      · rw [if_pos (by assumption)]
        exact ih (l + 1) _ hrest (Or.inr ⟨l, rfl⟩) hok
      · rw [if_neg (by assumption)]
        exact ih (l + 1) _ hrest (Or.inl rfl) hok
    · subst hsg
      rw [fcAux_insingle_step] at hok ⊢
      split at hok
      · rw [if_pos (by assumption)]
        refine Or.inr ?_
        simp only []
        rw [hline]
        have h1 := (by assumption : (!(lang.single.isPrefixOf (trimSpace line))) = true)
        cases hcase : lang.single.isPrefixOf (trimSpace line) with
        | false => rfl
        | true =>
          rw [hcase] at h1
          simp at h1
      · split at hok
        · rw [if_neg (by assumption), if_pos (by assumption)]
          refine Or.inl ?_
          have hempty : rest = [] := List.isEmpty_iff.mp (by assumption)
          have : all.length = l + 1 := by
            have hd1 : all.drop l = [line] := by rw [← halign, hempty]
            exact eq_length_of_drop_singleton hd1
          simp [this]
        · rw [if_neg (by assumption), if_neg (by assumption)]
          exact ih (l + 1) _ hrest (Or.inr ⟨g, rfl⟩) hok

/-! ### Facts about `process` and its components -/

theorem firstComment_def (source : Str) (lang : CommentMarkers) :
    firstComment source lang = fcAux lang (splitNL source) (splitNL source) 0 .start := rfl

theorem process_of_guard_false {source notice : Str} {lang : CommentMarkers}
    (h : ((firstComment source lang).2.1 && ((firstComment source lang).1 == notice)) = false) :
    process source lang notice = some (buildOut source lang notice) := by
  simp [process, h]

theorem process_of_guard_true {source notice : Str} {lang : CommentMarkers}
    (h : ((firstComment source lang).2.1 && ((firstComment source lang).1 == notice)) = true) :
    process source lang notice = none := by
  simp [process, h]

theorem process_some_inv {source notice out : Str} {lang : CommentMarkers}
    (h : process source lang notice = some out) : out = buildOut source lang notice := by
  simp only [process] at h
  split at h
  · cases h
  · exact (Option.some_inj.mp h).symm

theorem buildOut_eq (source notice : Str) (lang : CommentMarkers) :
    buildOut source lang notice
      = emitFrom (splitNL source).length 0 ((splitNL source).take (scanAdjusted source lang).1)
        ++ mkComment lang (chooseSep source) (prepNotice (chooseSep source) notice)
        ++ (if (scanAdjusted source lang).1 == 0 && (scanAdjusted source lang).2 == 0
              && !(splitNL source).isEmpty && !((splitNL source).headD []).isEmpty
            then chooseSep source else [])
        ++ emitFrom (splitNL source).length (scanAdjusted source lang).2
            ((splitNL source).drop (scanAdjusted source lang).2) := rfl

theorem chooseSep_lf {source : Str} (h : containsStr source crlf = false) :
    chooseSep source = nl := by
  simp [chooseSep, h]

theorem prepNotice_nl (notice : Str) : prepNotice nl notice = notice := by
  simp [prepNotice]

theorem scanAdjusted_forced {source : Str} {lang : CommentMarkers}
    (h1 : (firstComment source lang).2.1 = true)
    (h2 : containsStr (toLowerStr (firstComment source lang).1) copyrightStr = false) :
    scanAdjusted source lang = (0, 0) := by
  simp only [scanAdjusted]
  rw [if_pos (by rw [h1, h2]; rfl)]

theorem scanAdjusted_keep {source : Str} {lang : CommentMarkers}
    (h : (firstComment source lang).2.1 = false
      ∨ containsStr (toLowerStr (firstComment source lang).1) copyrightStr = true) :
    scanAdjusted source lang
      = ((firstComment source lang).2.2.1, (firstComment source lang).2.2.2) := by
  simp only [scanAdjusted]
  rcases h with h | h
  · rw [if_neg (by rw [h]; simp)]
  · rw [if_neg (by rw [h]; simp)]

theorem scanAdjusted_cases (source : Str) (lang : CommentMarkers) :
    scanAdjusted source lang = (0, 0)
      ∨ scanAdjusted source lang
          = ((firstComment source lang).2.2.1, (firstComment source lang).2.2.2) := by
  simp only [scanAdjusted]
  split
  · exact Or.inl rfl
  · exact Or.inr rfl

theorem splitNL_length_pos (source : Str) : 0 < (splitNL source).length :=
  List.length_pos.mpr (splitNL_ne_nil source)

theorem scanAdjusted_to_le (source : Str) (lang : CommentMarkers) :
    (scanAdjusted source lang).2 ≤ (splitNL source).length := by
  rcases scanAdjusted_cases source lang with h | h
  · rw [h]; exact Nat.zero_le _
  · rw [h]
    show (fcAux lang (splitNL source) (splitNL source) 0 .start).2.2.2 ≤ (splitNL source).length
    exact fcAux_to_le (splitNL source) 0 .start rfl

theorem scanAdjusted_from_lt (source : Str) (lang : CommentMarkers) :
    (scanAdjusted source lang).1 < (splitNL source).length := by
  rcases scanAdjusted_cases source lang with h | h
  · rw [h]; exact splitNL_length_pos source
  · rw [h]
    show (fcAux lang (splitNL source) (splitNL source) 0 .start).2.2.1 < (splitNL source).length
    rcases @fcAux_from_bound lang (splitNL source) (splitNL source) 0 .start rfl (Or.inl rfl) with h0 | h0
    · rw [h0]; exact splitNL_length_pos source
    · exact h0

theorem scanAdjusted_nonopen (source : Str) (lang : CommentMarkers) :
    ∀ i, i < (scanAdjusted source lang).1 →
    opensLine lang ((splitNL source).getD i []) = false := by
  intro i hi
  rcases scanAdjusted_cases source lang with h | h
  · rw [h] at hi; simp at hi
  · rw [h] at hi
    exact fcAux_start_nonopen (splitNL source) 0 rfl i (Nat.zero_le i) hi

theorem scanAdjusted_to_ne_zero {source : Str} {lang : CommentMarkers}
    (h : (scanAdjusted source lang).2 ≠ 0) :
    (firstComment source lang).2.1 = true
      ∧ (scanAdjusted source lang).2 = (firstComment source lang).2.2.2 := by
  rcases scanAdjusted_cases source lang with hc | hc
  · rw [hc] at h
    exact absurd rfl h
  · have h2 : (scanAdjusted source lang).2 = (firstComment source lang).2.2.2 := by rw [hc]
    refine ⟨?_, h2⟩
    by_contra hok
    have hfalse : (firstComment source lang).2.1 = false := by
      cases hcase : (firstComment source lang).2.1
      · rfl
      · exact absurd hcase hok
    have hz := (@fcAux_false_shape lang (splitNL source)
        (splitNL source) 0 .start hfalse).2
    exact h (h2.trans hz)

theorem forall_mem_take {P : Str → Prop} :
    ∀ (L : List Str) (f : Nat), (∀ i, i < f → P (L.getD i [])) → ∀ x ∈ L.take f, P x := by
  intro L
  induction L with
  | nil => intro f _ x hx; simp at hx
  | cons y L' ih =>
    intro f h x hx
    cases f with
    | zero => simp at hx
    | succ f' =>
      rw [List.take_succ_cons] at hx
      rcases List.mem_cons.mp hx with h1 | h1
      · subst h1
        exact h 0 (Nat.succ_pos f')
      · exact ih f' (fun i hi => h (i + 1) (by omega)) x h1

theorem isPrefixOf_nil_of_ne {s : Str} (h : s ≠ []) : s.isPrefixOf ([] : Str) = false := by
  cases s with
  | nil => exact absurd rfl h
  | cons c cs => rfl

theorem trimPre_append (a b : Str) : trimPre (a ++ b) a = b := by
  have h1 : a.isPrefixOf (a ++ b) = true := by
    rw [List.isPrefixOf_iff_prefix]
    exact List.prefix_append a b
  simp [trimPre, h1]

theorem stripRun_header (lang : CommentMarkers) (chunks : List Str) :
    stripRun lang (chunks.map (fun c => lang.single ++ [' '] ++ c)) = chunks := by
  simp only [stripRun, List.map_map]
  have hfun : ∀ c : Str,
      trimPre (trimPre (lang.single ++ [' '] ++ c) lang.single) [' '] = c := by
    intro c
    have h1 : lang.single ++ [' '] ++ c = lang.single ++ ([' '] ++ c) := by
      simp [List.append_assoc]
    rw [h1, trimPre_append]
    exact trimPre_append [' '] c
  calc (chunks.map ((fun s => trimPre (trimPre s lang.single) [' '])
          ∘ (fun c => lang.single ++ [' '] ++ c)))
      = chunks.map id := List.map_congr_left (fun c _ => hfun c)
    _ = chunks := List.map_id chunks

theorem mkComment_block {lang : CommentMarkers} (hmb : lang.multiBegin ≠ [])
    (sep notice : Str) :
    mkComment lang sep notice
      = lang.multiBegin ++ sep ++ notice ++ sep ++ lang.multiEnd ++ sep := by
  simp [mkComment, hmb]

theorem splitNL_mkComment_block {lang : CommentMarkers} (hmb : lang.multiBegin ≠ [])
    (hnb : noNL lang.multiBegin) (hne : noNL lang.multiEnd) (notice tail : Str) :
    splitNL (mkComment lang nl notice ++ tail)
      = lang.multiBegin :: (splitNL notice ++ lang.multiEnd :: splitNL tail) := by
  rw [mkComment_block hmb]
  have hr : lang.multiBegin ++ nl ++ notice ++ nl ++ lang.multiEnd ++ nl ++ tail
      = lang.multiBegin ++ nl ++ (notice ++ nl ++ (lang.multiEnd ++ nl ++ tail)) := by
    simp [List.append_assoc]
  rw [hr, splitNL_noNL_append _ hnb, splitNL_append_nl, splitNL_noNL_append _ hne]

theorem lineHeader_concat (single sep : Str) :
    ∀ (chunks : List Str), chunks ≠ [] →
    single ++ [' '] ++ joinSep (sep ++ single ++ [' ']) chunks ++ sep
      = (chunks.map (fun c => single ++ [' '] ++ c ++ sep)).flatten := by
  intro chunks
  induction chunks with
  | nil => intro h; exact absurd rfl h
  | cons c cs ih =>
    intro _
    cases cs with
    | nil => simp [joinSep]
    | cons c' cs' =>
      rw [List.map_cons, List.flatten_cons, ← ih (by simp), joinSep_cons_cons]
      simp [List.append_assoc]

theorem mkComment_line {lang : CommentMarkers} (hmb : lang.multiBegin = [])
    (sep notice : Str) :
    mkComment lang sep notice
      = ((splitNL notice).map (fun c => lang.single ++ [' '] ++ c ++ sep)).flatten := by
  have h1 : mkComment lang sep notice
      = lang.single ++ [' '] ++ joinSep (sep ++ lang.single ++ [' ']) (splitNL notice) ++ sep := by
    simp [mkComment, hmb]
  rw [h1, lineHeader_concat lang.single sep (splitNL notice) (splitNL_ne_nil notice)]

/-! ### Scanning a decomposed line list -/

/-- Scanning lines that consist of non-opening lines, a dedicated block
opener, inner lines none of which closes, and a closer: the scanner finds
exactly the inner lines joined verbatim. -/
theorem fc_block_lines {lang : CommentMarkers} {opener closer : Str}
    (hmb : lang.multiBegin ≠ [])
    (hop : trimSpace opener = lang.multiBegin)
    (hcl : trimSpace closer = lang.multiEnd)
    (pre chunks rest2 : List Str)
    (hpre : ∀ x ∈ pre, opensLine lang x = false)
    (hch : ∀ x ∈ chunks, ¬ trimSpace x = lang.multiEnd) :
    fcAux lang (pre ++ opener :: (chunks ++ closer :: rest2))
        (pre ++ opener :: (chunks ++ closer :: rest2)) 0 .start
      = (joinNL chunks, true, pre.length, pre.length + chunks.length + 2) := by
  rw [fcAux_start_skip pre _ 0 hpre, Nat.zero_add]
  rw [fcAux_start_step, if_pos (by simp [hop, hmb])]
  rw [fcAux_inmulti_run hcl chunks (pre.length + 1) pre.length rest2 hch]
  have hslice : sliceGo (pre.length + 1) (pre.length + 1 + chunks.length)
      (pre ++ opener :: (chunks ++ closer :: rest2)) = chunks := by
    unfold sliceGo
    have hregroup : pre ++ opener :: (chunks ++ closer :: rest2)
        = (pre ++ [opener]) ++ (chunks ++ closer :: rest2) := by simp
    have hl1 : (pre ++ [opener]).length = pre.length + 1 := by simp
    rw [hregroup, ← hl1, List.drop_left, hl1]
    have harith : pre.length + 1 + chunks.length - (pre.length + 1) = chunks.length := by
      omega
    rw [harith]
    exact List.take_left chunks (closer :: rest2)
  rw [hslice]
  have harith2 : pre.length + 1 + chunks.length + 1 = pre.length + chunks.length + 2 := by
    omega
  rw [harith2]

/-- Scanning lines that consist of non-opening lines, a line-comment run,
and a first non-run line: the scanner returns the run, prefix-stripped. -/
theorem fc_single_lines {lang : CommentMarkers} {hd next : Str}
    (hs : lang.single ≠ [])
    (hguard : (!lang.multiBegin.isEmpty && trimSpace hd == lang.multiBegin) = false)
    (hhd : lang.single.isPrefixOf (trimSpace hd) = true)
    (hnext : lang.single.isPrefixOf (trimSpace next) = false)
    (pre runT rest2 : List Str)
    (hpre : ∀ x ∈ pre, opensLine lang x = false)
    (hrun : ∀ x ∈ runT, lang.single.isPrefixOf (trimSpace x) = true) :
    fcAux lang (pre ++ (hd :: runT) ++ next :: rest2)
        (pre ++ (hd :: runT) ++ next :: rest2) 0 .start
      = (joinNL (stripRun lang (hd :: runT)), true, pre.length,
          pre.length + (hd :: runT).length) := by
  have hshape : pre ++ (hd :: runT) ++ next :: rest2
      = pre ++ (hd :: (runT ++ next :: rest2)) := by simp
  rw [hshape, fcAux_start_skip pre _ 0 hpre, Nat.zero_add]
  rw [fcAux_start_step, hguard]
  simp only [Bool.false_eq_true, if_false]
  rw [if_pos (by simp [hs, hhd])]
  rw [fcAux_insingle_close hnext runT (pre.length + 1) pre.length rest2 hrun]
  have hslice : sliceGo pre.length (pre.length + 1 + runT.length)
      (pre ++ (hd :: (runT ++ next :: rest2))) = hd :: runT := by
    unfold sliceGo
    rw [List.drop_left]
    have harith : pre.length + 1 + runT.length - pre.length = runT.length + 1 := by omega
    rw [harith, List.take_succ_cons, List.take_left]
  rw [hslice]
  have harith2 : pre.length + 1 + runT.length = pre.length + (hd :: runT).length := by
    simp
    omega
  rw [harith2]

/-- A line-comment run that reaches the end of input with at least one line
after the opener closes at the total line count. -/
theorem fc_single_lines_eof {lang : CommentMarkers} {hd : Str}
    (hs : lang.single ≠ [])
    (hguard : (!lang.multiBegin.isEmpty && trimSpace hd == lang.multiBegin) = false)
    (hhd : lang.single.isPrefixOf (trimSpace hd) = true)
    (pre runT : List Str) (hne : runT ≠ [])
    (hpre : ∀ x ∈ pre, opensLine lang x = false)
    (hrun : ∀ x ∈ runT, lang.single.isPrefixOf (trimSpace x) = true) :
    fcAux lang (pre ++ (hd :: runT)) (pre ++ (hd :: runT)) 0 .start
      = (joinNL (stripRun lang (hd :: runT)), true, pre.length,
          pre.length + (hd :: runT).length) := by
  rw [fcAux_start_skip pre _ 0 hpre, Nat.zero_add]
  rw [fcAux_start_step, hguard]
  simp only [Bool.false_eq_true, if_false]
  rw [if_pos (by simp [hs, hhd])]
  rw [fcAux_insingle_eof runT (pre.length + 1) pre.length hne hrun]
  have hslice : sliceGo pre.length (pre.length + 1 + runT.length)
      (pre ++ (hd :: runT)) = hd :: runT := by
    unfold sliceGo
    rw [List.drop_left]
    have harith : pre.length + 1 + runT.length - pre.length = runT.length + 1 := by omega
    rw [harith, List.take_succ_cons, List.take_length]
  rw [hslice]
  have harith2 : pre.length + 1 + runT.length = pre.length + (hd :: runT).length := by
    simp
    omega
  rw [harith2]

/-- A line-comment run opened on the very last line of the input is
abandoned: the scanner reports `found = false` with the opener's index as
the leaked `fromLine`. -/
theorem fc_single_lines_last {lang : CommentMarkers} {hd : Str}
    (hs : lang.single ≠ [])
    (hguard : (!lang.multiBegin.isEmpty && trimSpace hd == lang.multiBegin) = false)
    (hhd : lang.single.isPrefixOf (trimSpace hd) = true)
    (pre : List Str)
    (hpre : ∀ x ∈ pre, opensLine lang x = false) :
    fcAux lang (pre ++ [hd]) (pre ++ [hd]) 0 .start = ([], false, pre.length, 0) := by
  rw [fcAux_start_skip pre _ 0 hpre, Nat.zero_add]
  rw [fcAux_start_step, hguard]
  simp only [Bool.false_eq_true, if_false]
  rw [if_pos (by simp [hs, hhd])]
  rfl

theorem buildOut_decomp (source notice : Str) (lang : CommentMarkers) :
    buildOut source lang notice
      = preOf source lang
        ++ mkComment lang (chooseSep source) (prepNotice (chooseSep source) notice)
        ++ padOf source lang ++ sufOf source lang := rfl

theorem preOf_concat (source : Str) (lang : CommentMarkers) :
    preOf source lang
      = (((splitNL source).take (scanAdjusted source lang).1).map
          (fun x => x ++ nl)).flatten := by
  apply emitFrom_eq_concat
  have h1 := scanAdjusted_from_lt source lang
  rw [List.length_take]
  omega

theorem sufOf_joinNL (source : Str) (lang : CommentMarkers) :
    sufOf source lang = joinNL ((splitNL source).drop (scanAdjusted source lang).2) := by
  apply emitFrom_eq_joinNL
  have h1 := scanAdjusted_to_le source lang
  rw [List.length_drop]
  omega

theorem preOf_length (source : Str) (lang : CommentMarkers) :
    ((splitNL source).take (scanAdjusted source lang).1).length
      = (scanAdjusted source lang).1 := by
  have h1 := scanAdjusted_from_lt source lang
  rw [List.length_take]
  omega

theorem splitNL_buildOut_block {source notice : Str} {lang : CommentMarkers}
    (hmb : lang.multiBegin ≠ []) (hnb : noNL lang.multiBegin)
    (hnee : noNL lang.multiEnd) (hlf : containsStr source crlf = false) :
    splitNL (buildOut source lang notice)
      = (splitNL source).take (scanAdjusted source lang).1
        ++ lang.multiBegin :: (splitNL notice
            ++ lang.multiEnd :: splitNL (padOf source lang ++ sufOf source lang)) := by
  have hnoNL : ∀ x ∈ (splitNL source).take (scanAdjusted source lang).1, noNL x :=
    fun x hx => noNL_of_mem_splitNL (List.take_subset _ _ hx)
  have hshape : buildOut source lang notice
      = (((splitNL source).take (scanAdjusted source lang).1).map
            (fun x => x ++ nl)).flatten
        ++ (mkComment lang nl notice ++ (padOf source lang ++ sufOf source lang)) := by
    rw [buildOut_decomp, chooseSep_lf hlf, prepNotice_nl, preOf_concat]
    simp [List.append_assoc]
  rw [hshape, splitNL_concatNL _ hnoNL, splitNL_mkComment_block hmb hnb hnee]

theorem rescan_block {lang : CommentMarkers} {source notice : Str}
    (hh : blockHygiene lang) (hsafe : noticeBlockSafe lang notice)
    (hlf : containsStr source crlf = false) :
    firstComment (buildOut source lang notice) lang
      = (notice, true, (scanAdjusted source lang).1,
          (scanAdjusted source lang).1 + (splitNL notice).length + 2) := by
  obtain ⟨hmb, htb, hnb, hte, hnee⟩ := hh
  have hnonopen : ∀ x ∈ (splitNL source).take (scanAdjusted source lang).1,
      opensLine lang x = false :=
    forall_mem_take _ _ (fun i hi => scanAdjusted_nonopen source lang i hi)
  rw [firstComment_def, splitNL_buildOut_block hmb hnb hnee hlf]
  rw [fc_block_lines hmb htb hte _ _ _ hnonopen hsafe]
  rw [preOf_length, joinNL_splitNL notice]

theorem splitNL_isEmpty_false (source : Str) : (splitNL source).isEmpty = false := by
  cases h : splitNL source with
  | nil => exact absurd h (splitNL_ne_nil source)
  | cons l ls => rfl

/-- With line-comment emission, the first line after the emitted header
never carries the line prefix, so the re-scan closes exactly at the end of
the header. -/
theorem closeLine_not_pref {source : Str} {lang : CommentMarkers}
    (hmb : lang.multiBegin = []) (hs : lang.single ≠ [])
    (hlf : containsStr source crlf = false) :
    lang.single.isPrefixOf
      (trimSpace ((splitNL (padOf source lang ++ sufOf source lang)).headD [])) = false := by
  by_cases hpadc : ((scanAdjusted source lang).1 == 0 && (scanAdjusted source lang).2 == 0
      && !(splitNL source).isEmpty && !((splitNL source).headD []).isEmpty) = true
  · have hpad : padOf source lang = nl := by
      rw [padOf, if_pos hpadc, chooseSep_lf hlf]
    rw [hpad]
    have : nl ++ sufOf source lang = '\n' :: sufOf source lang := rfl
    rw [this, splitNL_cons_nl]
    simp only [List.headD]
    rw [(rfl : trimSpace [] = [])]
    exact isPrefixOf_nil_of_ne hs
  · have hpad : padOf source lang = [] := by
      rw [padOf, if_neg hpadc]
    rw [hpad, List.nil_append]
    by_cases htn : (scanAdjusted source lang).2 < (splitNL source).length
    · have hdropne : (splitNL source).drop (scanAdjusted source lang).2 ≠ [] := by
        intro h
        have := congrArg List.length h
        simp [List.length_drop] at this
        omega
      have hsufsplit : splitNL (sufOf source lang)
          = (splitNL source).drop (scanAdjusted source lang).2 := by
        rw [sufOf_joinNL]
        exact splitNL_joinNL
          (fun x hx => noNL_of_mem_splitNL (List.drop_subset _ _ hx)) hdropne
      rw [hsufsplit]
      have hhead : ((splitNL source).drop (scanAdjusted source lang).2).headD []
          = (splitNL source).getD (scanAdjusted source lang).2 [] :=
        (getD_eq_headD_drop _ _).symm
      rw [hhead]
      by_cases ht0 : (scanAdjusted source lang).2 = 0
      · by_cases hf0 : (scanAdjusted source lang).1 = 0
        · have hLne := splitNL_isEmpty_false source
          have hpadc2 : ((splitNL source).headD []).isEmpty = true := by
            cases hcc : ((splitNL source).headD []).isEmpty with
            | true => rfl
            | false =>
              exfalso
              apply hpadc
              rw [hf0, ht0, hLne, hcc]
              rfl
          have hpadc3 : (splitNL source).headD [] = [] := by
            cases hcc : (splitNL source).headD [] with
            | nil => rfl
            | cons a as =>
              rw [hcc] at hpadc2
              simp at hpadc2
          have hgd : (splitNL source).getD 0 [] = (splitNL source).headD [] := by
            rw [getD_eq_headD_drop]
            rfl
          rw [ht0, hgd, hpadc3, (rfl : trimSpace [] = [])]
          exact isPrefixOf_nil_of_ne hs
        · have hno := scanAdjusted_nonopen source lang 0 (Nat.pos_of_ne_zero hf0)
          obtain ⟨_, h2⟩ := opensLine_false_guards hno
          have hsne : lang.single.isEmpty = false := by
            cases hc : lang.single with
            | nil => exact absurd hc hs
            | cons a as => rfl
          rw [hsne, Bool.not_false, Bool.true_and] at h2
          rw [ht0]
          exact h2
      · obtain ⟨hok, htv⟩ := scanAdjusted_to_ne_zero ht0
        have hclosed := fcAux_single_closed hmb (splitNL source) 0 .start rfl
          (Or.inl rfl) hok
        rcases hclosed with hlen | hpref
        · exfalso
          rw [← firstComment_def] at hlen
          rw [← htv] at hlen
          omega
        · rw [← firstComment_def] at hpref
          rw [← htv] at hpref
          exact hpref
    · have htle := scanAdjusted_to_le source lang
      have hdropnil : (splitNL source).drop (scanAdjusted source lang).2 = [] := by
        apply List.drop_eq_nil_of_le
        omega
      have hsufnil : sufOf source lang = [] := by
        rw [sufOf_joinNL, hdropnil]
        rfl
      rw [hsufnil]
      simp only [splitNL, List.headD]
      rw [(rfl : trimSpace [] = [])]
      exact isPrefixOf_nil_of_ne hs

theorem rescan_line {lang : CommentMarkers} {source notice : Str}
    (hh : lineHygiene lang) (hsafe : noticeLineSafe lang notice)
    (hlf : containsStr source crlf = false) :
    firstComment (buildOut source lang notice) lang
      = (notice, true, (scanAdjusted source lang).1,
          (scanAdjusted source lang).1 + (splitNL notice).length) := by
  obtain ⟨hmb, hs, hnsingle⟩ := hh
  have hmk : mkComment lang nl notice
      = (((splitNL notice).map (fun c => lang.single ++ [' '] ++ c)).map
          (fun x => x ++ nl)).flatten := by
    rw [mkComment_line hmb, List.map_map]
    rfl
  have hnoNL : ∀ x ∈ (splitNL source).take (scanAdjusted source lang).1
      ++ (splitNL notice).map (fun c => lang.single ++ [' '] ++ c), noNL x := by
    intro x hx
    rcases List.mem_append.mp hx with h | h
    · exact noNL_of_mem_splitNL (List.take_subset _ _ h)
    · obtain ⟨c, hc, rfl⟩ := List.mem_map.mp h
      intro hmem
      rcases List.mem_append.mp hmem with h1 | h1
      · rcases List.mem_append.mp h1 with h2 | h2
        · exact hnsingle h2
        · simp at h1 h2
      · exact noNL_of_mem_splitNL hc h1
  have hshape : buildOut source lang notice
      = ((((splitNL source).take (scanAdjusted source lang).1
          ++ (splitNL notice).map (fun c => lang.single ++ [' '] ++ c)).map
            (fun x => x ++ nl)).flatten)
        ++ (padOf source lang ++ sufOf source lang) := by
    rw [buildOut_decomp, chooseSep_lf hlf, prepNotice_nl, preOf_concat, hmk]
    rw [List.map_append, List.flatten_append]
    simp [List.append_assoc]
  have hsplit : splitNL (buildOut source lang notice)
      = (splitNL source).take (scanAdjusted source lang).1
        ++ ((splitNL notice).map (fun c => lang.single ++ [' '] ++ c)
          ++ splitNL (padOf source lang ++ sufOf source lang)) := by
    rw [hshape, splitNL_concatNL _ hnoNL, List.append_assoc]
  have hnonopen : ∀ x ∈ (splitNL source).take (scanAdjusted source lang).1,
      opensLine lang x = false :=
    forall_mem_take _ _ (fun i hi => scanAdjusted_nonopen source lang i hi)
  have hclose := closeLine_not_pref hmb hs hlf
  cases hch : splitNL notice with
  | nil => exact absurd hch (splitNL_ne_nil notice)
  | cons c0 ct =>
    cases hT : splitNL (padOf source lang ++ sufOf source lang) with
    | nil => exact absurd hT (splitNL_ne_nil _)
    | cons closeLine afterL =>
      rw [hch, hT] at hsplit
      rw [hT] at hclose
      simp only [List.headD] at hclose
      have hsplit2 : splitNL (buildOut source lang notice)
          = (splitNL source).take (scanAdjusted source lang).1
            ++ ((lang.single ++ [' '] ++ c0) :: ct.map (fun c => lang.single ++ [' '] ++ c))
            ++ closeLine :: afterL := by
        rw [hsplit]
        simp [List.append_assoc]
      rw [firstComment_def, hsplit2]
      rw [fc_single_lines hs (by simp [hmb])
          (hsafe c0 (by rw [hch]; exact List.mem_cons_self c0 ct)) hclose
          _ _ _ hnonopen
          (by
            intro x hx
            obtain ⟨c, hc, rfl⟩ := List.mem_map.mp hx
            exact hsafe c (by rw [hch]; exact List.mem_cons_of_mem c0 hc))]
      have hstrip : stripRun lang
          ((lang.single ++ [' '] ++ c0) :: ct.map (fun c => lang.single ++ [' '] ++ c))
          = c0 :: ct := by
        have : (lang.single ++ [' '] ++ c0) :: ct.map (fun c => lang.single ++ [' '] ++ c)
            = (c0 :: ct).map (fun c => lang.single ++ [' '] ++ c) := by simp
        rw [this, stripRun_header]
      rw [hstrip, preOf_length]
      have hjoin : joinNL (c0 :: ct) = notice := by
        rw [← hch, joinNL_splitNL]
      rw [hjoin]
      have hlenmap : ((lang.single ++ [' '] ++ c0)
          :: ct.map (fun c => lang.single ++ [' '] ++ c)).length = (splitNL notice).length := by
        simp [hch]
      rw [hlenmap, hch]

/-! ### Newline-shape lemmas for the line-ending policy -/

theorem endCR_cons (p : Bool) (c : Char) (a : Str) :
    endCR p (c :: a) = endCR (c == '\r') a := by
  cases a with
  | nil => rfl
  | cons x xs => rfl

theorem lfOkAux_append : ∀ (a : Str) (p : Bool) (b : Str),
    lfOkAux p (a ++ b) = (lfOkAux p a && lfOkAux (endCR p a) b) := by
  intro a
  induction a with
  | nil => intro p b; simp [lfOkAux, endCR]
  | cons c a' ih =>
    intro p b
    show ((if c = '\n' then p else true) && lfOkAux (c == '\r') (a' ++ b))
        = (((if c = '\n' then p else true) && lfOkAux (c == '\r') a')
            && lfOkAux (endCR p (c :: a')) b)
    rw [ih (c == '\r') b, endCR_cons, Bool.and_assoc]

theorem lfOkAux_of_noNL {a : Str} (h : noNL a) : ∀ p, lfOkAux p a = true := by
  induction a with
  | nil => intro p; rfl
  | cons c a' ih =>
    intro p
    have hc : ¬ c = '\n' := fun hh => h (hh ▸ List.mem_cons_self c a')
    have ha' : noNL a' := fun hm => h (List.mem_cons_of_mem c hm)
    show ((if c = '\n' then p else true) && lfOkAux (c == '\r') a') = true
    rw [if_neg hc, ih ha' (c == '\r')]
    rfl

theorem lfOkAux_crlf : ∀ p, lfOkAux p crlf = true := by
  intro p
  rfl

theorem lfOkAux_append_true {a b : Str} (ha : ∀ q, lfOkAux q a = true)
    (hb : ∀ q, lfOkAux q b = true) : ∀ p, lfOkAux p (a ++ b) = true := by
  intro p
  rw [lfOkAux_append, ha p, hb (endCR p a)]
  rfl

theorem lfOkAux_joinSep_crlf {chunks : List Str} (h : ∀ c ∈ chunks, noNL c) :
    ∀ p, lfOkAux p (joinSep crlf chunks) = true := by
  induction chunks with
  | nil => intro p; rfl
  | cons c cs ih =>
    cases cs with
    | nil =>
      exact lfOkAux_of_noNL (h c (List.mem_cons_self c []))
    | cons c' cs' =>
      intro p
      rw [joinSep_cons_cons]
      have hc : ∀ q, lfOkAux q c = true :=
        lfOkAux_of_noNL (h c (List.mem_cons_self c (c' :: cs')))
      have hrest : ∀ q, lfOkAux q (joinSep crlf (c' :: cs')) = true :=
        ih (fun z hz => h z (List.mem_cons_of_mem c hz))
      exact lfOkAux_append_true (lfOkAux_append_true hc lfOkAux_crlf) hrest p

theorem lfOkAux_flatten {pieces : List Str}
    (h : ∀ x ∈ pieces, ∀ p, lfOkAux p x = true) :
    ∀ p, lfOkAux p pieces.flatten = true := by
  induction pieces with
  | nil => intro p; rfl
  | cons x xs ih =>
    rw [List.flatten_cons]
    exact lfOkAux_append_true (h x (List.mem_cons_self x xs))
      (ih (fun z hz => h z (List.mem_cons_of_mem x hz)))

theorem mem_of_containsStr_crlf : ∀ {s : Str}, containsStr s crlf = true → '\r' ∈ s := by
  intro s
  induction s with
  | nil => intro h; simp [containsStr, crlf, List.isEmpty] at h
  | cons c rest ih =>
    intro h
    rw [(rfl : containsStr (c :: rest) crlf
        = (crlf.isPrefixOf (c :: rest) || containsStr rest crlf))] at h
    rcases Bool.or_eq_true_iff.mp h with h1 | h1
    · have hpre : crlf <+: c :: rest := List.isPrefixOf_iff_prefix.mp h1
      obtain ⟨t, ht⟩ := hpre
      have : c = '\r' := by
        have := congrArg (fun l => l.headD ' ') ht
        simpa [crlf] using this.symm
      rw [this]
      exact List.mem_cons_self _ _
    · exact List.mem_cons_of_mem c (ih h1)

theorem containsStr_crlf_false_of_not_mem {s : Str} (h : '\r' ∉ s) :
    containsStr s crlf = false := by
  cases hc : containsStr s crlf with
  | false => rfl
  | true => exact absurd (mem_of_containsStr_crlf hc) h

theorem mem_joinSep {c : Char} {sep : Str} :
    ∀ {L : List Str}, c ∈ joinSep sep L → c ∈ sep ∨ ∃ x ∈ L, c ∈ x := by
  intro L
  induction L with
  | nil => intro h; simp [joinSep] at h
  | cons x xs ih =>
    intro h
    cases xs with
    | nil =>
      exact Or.inr ⟨x, List.mem_cons_self x [], h⟩
    | cons y ys =>
      rw [joinSep_cons_cons] at h
      rcases List.mem_append.mp h with h1 | h1
      · rcases List.mem_append.mp h1 with h2 | h2
        · exact Or.inr ⟨x, List.mem_cons_self x (y :: ys), h2⟩
        · exact Or.inl h2
      · rcases ih h1 with h2 | ⟨z, hz, hcz⟩
        · exact Or.inl h2
        · exact Or.inr ⟨z, List.mem_cons_of_mem x hz, hcz⟩

theorem mem_of_mem_splitNL {c : Char} : ∀ {s x : Str}, x ∈ splitNL s → c ∈ x → c ∈ s := by
  intro s
  induction s with
  | nil =>
    intro x hx hc
    simp [splitNL] at hx
    rw [hx] at hc
    simp at hc
  | cons d t ih =>
    intro x hx hc
    by_cases hd : d = '\n'
    · subst hd
      rw [splitNL_cons_nl] at hx
      rcases List.mem_cons.mp hx with h | h
      · rw [h] at hc; simp at hc
      · exact List.mem_cons_of_mem _ (ih h hc)
    · cases hsp : splitNL t with
      | nil => exact absurd hsp (splitNL_ne_nil t)
      | cons l ls =>
        rw [splitNL_cons_not_nl t hd, hsp] at hx
        simp only [List.headD, List.tail] at hx
        rcases List.mem_cons.mp hx with h | h
        · rw [h] at hc
          rcases List.mem_cons.mp hc with h1 | h1
          · rw [h1]; exact List.mem_cons_self _ _
          · exact List.mem_cons_of_mem _
              (ih (by rw [hsp]; exact List.mem_cons_self l ls) h1)
        · exact List.mem_cons_of_mem _
            (ih (by rw [hsp]; exact List.mem_cons_of_mem l h) hc)

/-! ### Claims -/

/-- Counterexample to claim C1: the spec says lines inside a block comment
are appended right-trimmed of trailing spaces, but `firstComment` joins
the inner lines verbatim — on `"/*\nRight \n*/"` the decoded text keeps
the trailing space, while the claim predicts the right-trimmed `"Right"`. -/
theorem block_decode_not_rtrimmed_cex :
    (firstComment "/*\nRight \n*/".data goMarkers).1 = "Right ".data
      ∧ specRTrim "Right ".data = "Right".data
      ∧ "Right ".data ≠ "Right".data := by
  decide

/-- Claim C1 (amended): with a non-empty block-start token, block mode
opens exactly at a line whose trimmed content equals `blockStart`; each
line up to (but excluding) the first line whose trimmed content equals
`blockEnd` is appended to the decoded text verbatim (no trimming),
newline-joined; `endLine` is the closing line's index plus one and the
delimiter lines contribute no text. -/
theorem firstComment_block_characterization
    (lang : CommentMarkers) (source opener closer : Str)
    (pre chunks rest2 : List Str)
    (hmb : lang.multiBegin ≠ [])
    (hop : trimSpace opener = lang.multiBegin)
    (hcl : trimSpace closer = lang.multiEnd)
    (hpre : ∀ x ∈ pre, opensLine lang x = false)
    (hch : ∀ x ∈ chunks, ¬ trimSpace x = lang.multiEnd)
    (hdec : splitNL source = pre ++ opener :: (chunks ++ closer :: rest2)) :
    firstComment source lang
      = (joinNL chunks, true, pre.length, pre.length + chunks.length + 2) := by
  rw [firstComment_def, hdec]
  exact fc_block_lines hmb hop hcl pre chunks rest2 hpre hch

/-- Witness for the amended C1, on the repository's own test vector. -/
theorem firstComment_block_characterization_witness :
    firstComment "/*\nRight\n Right\n*/\npackage x".data goMarkers
      = ("Right\n Right".data, true, 0, 4) := by
  have h := firstComment_block_characterization goMarkers
      "/*\nRight\n Right\n*/\npackage x".data "/*".data "*/".data
      [] ["Right".data, " Right".data] ["package x".data]
      (by decide) (by decide) (by decide) (by decide) (by decide) (by decide)
  exact h

/-- Counterexample to claim C2: on the one-line input `"// a"` a
line-comment run opens on the final line; the claim says the run closes
with `endLine` equal to the total line count (1), but the scanner
abandons the run and reports `found = false` with `endLine = 0`. -/
theorem line_run_eof_open_cex :
    firstComment "// a".data goMarkers = ([], false, 0, 0)
      ∧ goMarkers.single.isPrefixOf (trimSpace "// a".data) = true
      ∧ (splitNL "// a".data).length = 1 := by
  decide

/-- Claim C2 (amended): once a line whose trimmed content begins with the
prefix (and is not a block opener) opens a run, each run line contributes
the raw line with a literal leading prefix stripped when present and then
one leading space stripped; the first non-prefixed line closes the run at
its index; if the input ends inside the run with at least one line after
the opener, `endLine` is the total line count; a run opened on the final
line is abandoned (`found = false`). -/
theorem firstComment_line_characterization
    (lang : CommentMarkers) (hd : Str) (pre runT : List Str)
    (hs : lang.single ≠ [])
    (hguard : (!lang.multiBegin.isEmpty && trimSpace hd == lang.multiBegin) = false)
    (hhd : lang.single.isPrefixOf (trimSpace hd) = true)
    (hpre : ∀ x ∈ pre, opensLine lang x = false)
    (hrun : ∀ x ∈ runT, lang.single.isPrefixOf (trimSpace x) = true) :
    (∀ (source next : Str) (rest2 : List Str),
        splitNL source = pre ++ (hd :: runT) ++ next :: rest2 →
        lang.single.isPrefixOf (trimSpace next) = false →
        firstComment source lang
          = (joinNL (stripRun lang (hd :: runT)), true, pre.length,
              pre.length + (hd :: runT).length))
    ∧ (∀ (source : Str), splitNL source = pre ++ (hd :: runT) → runT ≠ [] →
        firstComment source lang
          = (joinNL (stripRun lang (hd :: runT)), true, pre.length,
              pre.length + (hd :: runT).length))
    ∧ (∀ (source : Str), splitNL source = pre ++ [hd] → runT = [] →
        firstComment source lang = ([], false, pre.length, 0)) := by
  refine ⟨?_, ?_, ?_⟩
  · intro source next rest2 hdec hnext
    rw [firstComment_def, hdec]
    exact fc_single_lines hs hguard hhd hnext pre runT rest2 hpre hrun
  · intro source hdec hne
    rw [firstComment_def, hdec]
    exact fc_single_lines_eof hs hguard hhd pre runT hne hpre hrun
  · intro source hdec _
    rw [firstComment_def, hdec]
    exact fc_single_lines_last hs hguard hhd pre hpre

/-- Witness for the amended C2, on the repository's own test vector. -/
theorem firstComment_line_characterization_witness :
    firstComment "// Right\n// Right\npackage example\n\t".data goMarkers
      = ("Right\nRight".data, true, 0, 2) := by
  have h := (firstComment_line_characterization goMarkers "// Right".data []
      ["// Right".data] (by decide) (by decide) (by decide) (by decide) (by decide)).1
      "// Right\n// Right\npackage example\n\t".data "package example".data ["\t".data]
      (by decide) (by decide)
  exact h

/-- Counterexample to claim C9: on `"a\n/*\nb"` the block opener at line 1
is never closed, detection fails, and the failure return leaks
`startLine = 1` instead of the claimed 0. -/
theorem fc_fail_startline_cex :
    firstComment "a\n/*\nb".data goMarkers = ([], false, 1, 0)
      ∧ (firstComment "a\n/*\nb".data goMarkers).2.2.1 ≠ 0 := by
  decide

/-- Claim C9 (amended): whenever `firstComment` fails it returns
`text = ""` and `endLine = 0` — never a partial comment; `startLine` is 0
unless a comment opener was consumed whose comment never completed, in
which case it is that opener's index (a line passing the opening test). -/
theorem fc_failure_shape
    (source : Str) (lang : CommentMarkers) (tx : Str) (f t : Nat)
    (hfc : firstComment source lang = (tx, false, f, t)) :
    tx = [] ∧ t = 0
      ∧ (f = 0 ∨ opensLine lang ((splitNL source).getD f []) = true) := by
  have h1 : (firstComment source lang).2.1 = false := by rw [hfc]
  have hsh := @fcAux_false_shape lang (splitNL source)
    (splitNL source) 0 .start h1
  have hop := @fcAux_false_opens lang (splitNL source)
    (splitNL source) 0 .start rfl trivial h1
  rw [← firstComment_def, hfc] at hsh hop
  exact ⟨hsh.1, hsh.2, hop⟩

/-- Witness for the amended C9 at the unclosed-block input. -/
theorem fc_failure_shape_witness :
    ([] : Str) = [] ∧ (0 : Nat) = 0
      ∧ ((1 : Nat) = 0
          ∨ opensLine goMarkers ((splitNL "a\n/*\nb".data).getD 1 []) = true) :=
  fc_failure_shape "a\n/*\nb".data goMarkers [] 1 0 (by decide)

/-- Claim C10: with a style whose line-prefix and block tokens are all
empty, the scanner matches nothing: it always returns
`("", false, 0, 0)`. -/
theorem fc_empty_style_never_matches
    (source : Str) (lang : CommentMarkers)
    (h1 : lang.single = []) (h2 : lang.multiBegin = []) :
    firstComment source lang = ([], false, 0, 0) := by
  rw [firstComment_def]
  suffices h : ∀ (R : List Str) (l : Nat),
      fcAux lang (splitNL source) R l .start = ([], false, 0, 0) by
    exact h (splitNL source) 0
  intro R
  induction R with
  | nil => intro l; rfl
  | cons line rest ih =>
    intro l
    rw [fcAux_start_step]
    rw [if_neg (by rw [h2]; simp)]
    rw [if_neg (by rw [h1]; simp)]
    exact ih (l + 1)

/-- Witness for C10 at a concrete source and the all-empty style. -/
theorem fc_empty_style_never_matches_witness :
    firstComment "# x\n// y\n".data { single := [], multiBegin := [], multiEnd := [] }
      = ([], false, 0, 0) :=
  fc_empty_style_never_matches "# x\n// y\n".data
    { single := [], multiBegin := [], multiEnd := [] } (by decide) (by decide)

/-- Counterexample to claim C3: when the detected non-copyright comment
happens to equal the notice verbatim, the equality no-op fires first and
`process` writes nothing, instead of prepending as the claim requires. -/
theorem noncopyright_equal_notice_cex :
    firstComment "/*\nhello\n*/\nx".data goMarkers = ("hello".data, true, 0, 3)
      ∧ containsStr (toLowerStr "hello".data) copyrightStr = false
      ∧ process "/*\nhello\n*/\nx".data goMarkers "hello".data = none := by
  decide

/-- Claim C3 (amended): if a first comment is detected whose decoded text
does not case-insensitively contain "copyright" and differs from the
notice, `process` treats it as no detection (range forced to (0,0)), does
not replace it, and only prepends the new header: the output is the new
comment, an optional blank separator, then the original source intact. -/
theorem process_prepends_on_noncopyright
    (source notice : Str) (lang : CommentMarkers) (text : Str) (f t : Nat)
    (hfc : firstComment source lang = (text, true, f, t))
    (hnc : containsStr (toLowerStr text) copyrightStr = false)
    (hne : text ≠ notice) :
    scanAdjusted source lang = (0, 0)
      ∧ process source lang notice
        = some (mkComment lang (chooseSep source) (prepNotice (chooseSep source) notice)
            ++ (if ((splitNL source).headD []).isEmpty then [] else chooseSep source)
            ++ source) := by
  have h1 : (firstComment source lang).2.1 = true := by rw [hfc]
  have h1' : (firstComment source lang).1 = text := by rw [hfc]
  have hadj : scanAdjusted source lang = (0, 0) :=
    scanAdjusted_forced h1 (by rw [h1']; exact hnc)
  refine ⟨hadj, ?_⟩
  have hguard : ((firstComment source lang).2.1
      && ((firstComment source lang).1 == notice)) = false := by
    rw [h1, h1']
    simp [hne]
  rw [process_of_guard_false hguard, buildOut_decomp]
  have hf0 : (scanAdjusted source lang).1 = 0 := by rw [hadj]
  have ht0 : (scanAdjusted source lang).2 = 0 := by rw [hadj]
  have hpre0 : preOf source lang = [] := by
    rw [preOf, hf0]
    rfl
  have hsuf : sufOf source lang = source := by
    rw [sufOf_joinNL, ht0, List.drop_zero, joinNL_splitNL]
  have hpad : padOf source lang
      = (if ((splitNL source).headD []).isEmpty then [] else chooseSep source) := by
    rw [padOf, hf0, ht0, splitNL_isEmpty_false]
    cases hc : ((splitNL source).headD []).isEmpty with
    | false => simp
    | true => simp
  rw [hpre0, hsuf, hpad, List.nil_append]

/-- Witness for the amended C3: spec Scenario A, where a package
doc-comment without "copyright" is preserved after the new header. -/
theorem process_prepends_on_noncopyright_witness :
    process "// Package example does something\npackage example\n\nvar x\n".data
        goMarkers "Copyright notice".data
      = some ("/*\nCopyright notice\n*/\n\n"
          ++ "// Package example does something\npackage example\n\nvar x\n").data := by
  have h := (process_prepends_on_noncopyright
      "// Package example does something\npackage example\n\nvar x\n".data
      "Copyright notice".data goMarkers
      "Package example does something".data 0 1
      (by decide) (by decide) (by decide)).2
  rw [h]
  decide

/-- Counterexample to claim C4: with a CRLF source and a notice lacking
"copyright", the re-scan decodes `"Hello\r"` which neither equals the
notice nor contains "copyright", so the second cycle prepends a second
header — the bytes differ. -/
theorem cycle_not_idempotent_cex :
    cycle goMarkers "Hello".data (cycle goMarkers "Hello".data "x\r\ny".data)
      ≠ cycle goMarkers "Hello".data "x\r\ny".data := by
  decide

/-- Claim C4 (amended): for sources without CRLF line endings, and notices
compatible with the style (for block styles: hygienic markers and no
notice line trimming to the block-end token; for line-prefix styles:
hygienic prefix with every emitted header line re-detected), the
detect-then-apply cycle is idempotent: running it twice yields the same
bytes the second time, because the second pass detects exactly the notice
and is a no-op. -/
theorem cycle_idempotent_of_safe
    (lang : CommentMarkers) (source notice : Str)
    (hsafe : (blockHygiene lang ∧ noticeBlockSafe lang notice)
      ∨ (lineHygiene lang ∧ noticeLineSafe lang notice))
    (hlf : containsStr source crlf = false) :
    cycle lang notice (cycle lang notice source) = cycle lang notice source := by
  unfold cycle
  cases hp : process source lang notice with
  | none =>
    simp only [Option.getD_none]
    rw [hp]
    simp only [Option.getD_none]
  | some out =>
    simp only [Option.getD_some]
    have hout : out = buildOut source lang notice := process_some_inv hp
    have hfc : (firstComment out lang).2.1 = true
        ∧ (firstComment out lang).1 = notice := by
      rcases hsafe with ⟨hb, hbs⟩ | ⟨hl, hls⟩
      · have hres := rescan_block hb hbs hlf
        rw [← hout] at hres
        exact ⟨by rw [hres], by rw [hres]⟩
      · have hres := rescan_line hl hls hlf
        rw [← hout] at hres
        exact ⟨by rw [hres], by rw [hres]⟩
    have hnone : process out lang notice = none :=
      process_of_guard_true (by rw [hfc.1, hfc.2]; simp)
    rw [hnone]
    rfl

/-- Witness for the amended C4 at a block style, LF source and the usual
notice. -/
theorem cycle_idempotent_of_safe_witness :
    cycle goMarkers "Copyright notice".data
        (cycle goMarkers "Copyright notice".data "package x\n".data)
      = cycle goMarkers "Copyright notice".data "package x\n".data :=
  cycle_idempotent_of_safe goMarkers "package x\n".data "Copyright notice".data
    (Or.inl ⟨by decide, by decide⟩) (by decide)

/-- Counterexample to claim C5: the CRLF source `"x\r\ny"` has no
detectable leading comment; after inserting the notice `"Hello"`, the
re-scan decodes `"Hello\r"`, not the injected notice. -/
theorem roundtrip_text_mismatch_cex :
    firstComment "x\r\ny".data goMarkers = ([], false, 0, 0)
      ∧ process "x\r\ny".data goMarkers "Hello".data
          = some "/*\r\nHello\r\n*/\r\n\r\nx\r\ny".data
      ∧ (firstComment "/*\r\nHello\r\n*/\r\n\r\nx\r\ny".data goMarkers).1
          ≠ "Hello".data := by
  decide

/-- Claim C5 (amended): for a source without CRLF line endings in which no
comment is detected, and a style/notice pair satisfying the same hygiene
conditions as C4, re-scanning the `process` output finds a comment whose
decoded text is exactly the injected notice. -/
theorem roundtrip_detects_notice_of_safe
    (lang : CommentMarkers) (source notice tx : Str) (a b : Nat)
    (hsafe : (blockHygiene lang ∧ noticeBlockSafe lang notice)
      ∨ (lineHygiene lang ∧ noticeLineSafe lang notice))
    (hlf : containsStr source crlf = false)
    (hnf : firstComment source lang = (tx, false, a, b)) :
    ∃ out p q, process source lang notice = some out
      ∧ firstComment out lang = (notice, true, p, q) := by
  have hguard : ((firstComment source lang).2.1
      && ((firstComment source lang).1 == notice)) = false := by
    rw [hnf]
    rfl
  have hp := process_of_guard_false hguard
  rcases hsafe with ⟨hb, hbs⟩ | ⟨hl, hls⟩
  · exact ⟨_, _, _, hp, rescan_block hb hbs hlf⟩
  · exact ⟨_, _, _, hp, rescan_line hl hls hlf⟩

/-- Witness for the amended C5 at a line style (.py) and an LF source. -/
theorem roundtrip_detects_notice_of_safe_witness :
    ∃ out p q, process "x = 1\n".data pyMarkers "Copyright notice".data = some out
      ∧ firstComment out pyMarkers = ("Copyright notice".data, true, p, q) :=
  roundtrip_detects_notice_of_safe pyMarkers "x = 1\n".data "Copyright notice".data
    [] 0 0 (Or.inr ⟨by decide, by decide⟩) (by decide) (by decide)

/-- Claim C6: the writer output decomposes into the lines before the
effective start index (copied verbatim, with their newlines), the new
comment, the optional blank separator, and the lines from the effective
end index on (copied verbatim, preserving the trailing-newline
structure); the copied pieces are a literal prefix and a literal suffix
of the original source. -/
theorem process_frame_preservation
    (source notice out : Str) (lang : CommentMarkers)
    (hp : process source lang notice = some out) :
    out = preOf source lang
        ++ mkComment lang (chooseSep source) (prepNotice (chooseSep source) notice)
        ++ padOf source lang ++ sufOf source lang
      ∧ preOf source lang <+: source
      ∧ sufOf source lang <:+ source := by
  refine ⟨by rw [process_some_inv hp, buildOut_decomp], ?_, ?_⟩
  · have hfn := scanAdjusted_from_lt source lang
    have h1 : preOf source lang <+: joinNL (splitNL source) := by
      rw [preOf_concat, joinNL_take_drop (scanAdjusted source lang).1 (splitNL source) hfn]
      exact List.prefix_append _ _
    rwa [joinNL_splitNL] at h1
  · have h1 : sufOf source lang <:+ joinNL (splitNL source) := by
      rw [sufOf_joinNL]
      exact joinNL_drop_suffix _ _
    rwa [joinNL_splitNL] at h1

/-- Witness for C6 at spec Scenario B (replace of an existing copyright
line comment). -/
theorem process_frame_preservation_witness :
    "/*\nCopyright notice\n*/\npackage example\n\nvar x\n".data
        = preOf "// Old copyright notice\npackage example\n\nvar x\n".data goMarkers
          ++ mkComment goMarkers
              (chooseSep "// Old copyright notice\npackage example\n\nvar x\n".data)
              (prepNotice (chooseSep "// Old copyright notice\npackage example\n\nvar x\n".data)
                "Copyright notice".data)
          ++ padOf "// Old copyright notice\npackage example\n\nvar x\n".data goMarkers
          ++ sufOf "// Old copyright notice\npackage example\n\nvar x\n".data goMarkers
      ∧ preOf "// Old copyright notice\npackage example\n\nvar x\n".data goMarkers
          <+: "// Old copyright notice\npackage example\n\nvar x\n".data
      ∧ sufOf "// Old copyright notice\npackage example\n\nvar x\n".data goMarkers
          <:+ "// Old copyright notice\npackage example\n\nvar x\n".data :=
  process_frame_preservation "// Old copyright notice\npackage example\n\nvar x\n".data
    "Copyright notice".data "/*\nCopyright notice\n*/\npackage example\n\nvar x\n".data
    goMarkers (by decide)

/-- Claim C7: the writer emits exactly one extra blank separator line
between the new header and the body if and only if it is inserting (both
effective indices zero) and the original first line is non-empty; no
separator is emitted when replacing, when the file is empty, or when it
starts with a blank line. -/
theorem process_blank_separator_iff
    (source notice out : Str) (lang : CommentMarkers)
    (hp : process source lang notice = some out) :
    ((scanAdjusted source lang).1 = 0 ∧ (scanAdjusted source lang).2 = 0
        ∧ (splitNL source).headD [] ≠ [] →
      out = mkComment lang (chooseSep source) (prepNotice (chooseSep source) notice)
        ++ (chooseSep source ++ source))
    ∧ ((scanAdjusted source lang).1 = 0 ∧ (scanAdjusted source lang).2 = 0
        ∧ (splitNL source).headD [] = [] →
      out = mkComment lang (chooseSep source) (prepNotice (chooseSep source) notice)
        ++ source)
    ∧ (¬((scanAdjusted source lang).1 = 0 ∧ (scanAdjusted source lang).2 = 0) →
      out = preOf source lang
        ++ mkComment lang (chooseSep source) (prepNotice (chooseSep source) notice)
        ++ sufOf source lang) := by
  have hout : out = buildOut source lang notice := process_some_inv hp
  refine ⟨?_, ?_, ?_⟩
  · rintro ⟨hf0, ht0, hhd⟩
    rw [hout, buildOut_decomp]
    have hpre0 : preOf source lang = [] := by
      rw [preOf, hf0]
      rfl
    have hsuf : sufOf source lang = source := by
      rw [sufOf_joinNL, ht0, List.drop_zero, joinNL_splitNL]
    have hhe : ((splitNL source).headD []).isEmpty = false := by
      cases hc : (splitNL source).headD [] with
      | nil => exact absurd hc hhd
      | cons a as => rfl
    have hpad : padOf source lang = chooseSep source := by
      rw [padOf, if_pos (by rw [hf0, ht0, splitNL_isEmpty_false, hhe]; rfl)]
    rw [hpre0, hsuf, hpad, List.nil_append, List.append_assoc]
  · rintro ⟨hf0, ht0, hhd⟩
    rw [hout, buildOut_decomp]
    have hpre0 : preOf source lang = [] := by
      rw [preOf, hf0]
      rfl
    have hsuf : sufOf source lang = source := by
      rw [sufOf_joinNL, ht0, List.drop_zero, joinNL_splitNL]
    have hpad : padOf source lang = [] := by
      rw [padOf, if_neg (by rw [hf0, ht0, splitNL_isEmpty_false, hhd]; simp)]
    rw [hpre0, hsuf, hpad, List.nil_append, List.append_nil]
  · intro hnot
    rw [hout, buildOut_decomp]
    have hpad : padOf source lang = [] := by
      rw [padOf, if_neg ?_]
      intro hcond
      apply hnot
      simp only [Bool.and_eq_true, beq_iff_eq] at hcond
      exact ⟨hcond.1.1.1, hcond.1.1.2⟩
    rw [hpad, List.append_nil]

/-- Witness for C7, first branch: inserting into a non-blank first line
emits exactly one separator line. -/
theorem process_blank_separator_iff_witness :
    "/*\nCopyright notice\n*/\n\nvar x".data
        = mkComment goMarkers (chooseSep "var x".data)
            (prepNotice (chooseSep "var x".data) "Copyright notice".data)
          ++ (chooseSep "var x".data ++ "var x".data) :=
  (process_blank_separator_iff "var x".data "Copyright notice".data
      "/*\nCopyright notice\n*/\n\nvar x".data goMarkers (by decide)).1
    ⟨by decide, by decide, by decide⟩

theorem chooseSep_crlf {source : Str} (h : containsStr source crlf = true) :
    chooseSep source = crlf := by
  simp [chooseSep, h]

theorem prepNotice_crlf (notice : Str) :
    prepNotice crlf notice = joinSep crlf (splitNL notice) := rfl

theorem crlfOnly_mkComment (lang : CommentMarkers) (notice : Str)
    (hnb : noNL lang.multiBegin) (hne : noNL lang.multiEnd) (hns : noNL lang.single) :
    crlfOnly (mkComment lang crlf (joinSep crlf (splitNL notice))) = true := by
  by_cases hmb : lang.multiBegin = []
  · rw [mkComment_line hmb]
    unfold crlfOnly
    apply lfOkAux_flatten
    intro x hx
    obtain ⟨c, hc, rfl⟩ := List.mem_map.mp hx
    have hpiece : noNL (lang.single ++ [' '] ++ c) := by
      intro hmem
      rcases List.mem_append.mp hmem with h1 | h1
      · rcases List.mem_append.mp h1 with h2 | h2
        · exact hns h2
        · simp at h2
      · exact noNL_of_mem_splitNL hc h1
    exact lfOkAux_append_true (lfOkAux_of_noNL hpiece) lfOkAux_crlf
  · rw [mkComment_block hmb]
    unfold crlfOnly
    have hN : ∀ p, lfOkAux p (joinSep crlf (splitNL notice)) = true :=
      lfOkAux_joinSep_crlf (fun c hc => noNL_of_mem_splitNL hc)
    exact lfOkAux_append_true (lfOkAux_append_true (lfOkAux_append_true
      (lfOkAux_append_true (lfOkAux_append_true (lfOkAux_of_noNL hnb) lfOkAux_crlf)
        hN) lfOkAux_crlf) (lfOkAux_of_noNL hne)) lfOkAux_crlf false

theorem rNotMem_mkComment_nl (lang : CommentMarkers) (notice : Str)
    (hrn : '\r' ∉ notice) (hrb : '\r' ∉ lang.multiBegin)
    (hre : '\r' ∉ lang.multiEnd) (hrs : '\r' ∉ lang.single) :
    '\r' ∉ mkComment lang nl notice := by
  by_cases hmb : lang.multiBegin = []
  · rw [mkComment_line hmb]
    intro hmem
    obtain ⟨piece, hp, hcp⟩ := List.mem_flatten.mp hmem
    obtain ⟨c, hc, rfl⟩ := List.mem_map.mp hp
    rcases List.mem_append.mp hcp with h1 | h1
    · rcases List.mem_append.mp h1 with h2 | h2
      · rcases List.mem_append.mp h2 with h3 | h3
        · exact hrs h3
        · simp at h3
      · exact hrn (mem_of_mem_splitNL hc h2)
    · simp [nl] at h1
  · rw [mkComment_block hmb]
    intro hmem
    rcases List.mem_append.mp hmem with h1 | h1
    · rcases List.mem_append.mp h1 with h2 | h2
      · rcases List.mem_append.mp h2 with h3 | h3
        · rcases List.mem_append.mp h3 with h4 | h4
          · rcases List.mem_append.mp h4 with h5 | h5
            · exact hrb h5
            · simp [nl] at h5
          · exact hrn h4
        · simp [nl] at h3
      · exact hre h2
    · simp [nl] at h1

/-- Counterexample to claim C8: a notice containing `"\r\n"` injected into
a source without `"\r\n"` produces a header that contains a `"\r\n"`
newline, contradicting the claim that all emitted newlines use `"\n"`. -/
theorem header_newlines_cex :
    containsStr "x".data crlf = false
      ∧ process "x".data goMarkers "a\r\nb".data = some "/*\na\r\nb\n*/\n\nx".data
      ∧ containsStr "/*\na\r\nb\n*/\n\nx".data crlf = true := by
  decide

/-- Claim C8 (amended): the separator is chosen once per file from the
original bytes.  For a source containing `"\r\n"`, every newline of the
emitted header (including those inside a multi-line notice) is a
`"\r\n"` pair.  For a source without `"\r\n"`, the header contains no
`"\r\n"` provided the notice itself (and the markers) carry no carriage
returns — the writer emits `"\n"` separators and the notice verbatim. -/
theorem header_newline_policy
    (lang : CommentMarkers) (source notice : Str)
    (hnb : noNL lang.multiBegin) (hne : noNL lang.multiEnd) (hns : noNL lang.single) :
    (containsStr source crlf = true →
      crlfOnly (mkComment lang (chooseSep source)
        (prepNotice (chooseSep source) notice)) = true)
    ∧ (containsStr source crlf = false → '\r' ∉ notice →
        '\r' ∉ lang.multiBegin → '\r' ∉ lang.multiEnd → '\r' ∉ lang.single →
      containsStr (mkComment lang (chooseSep source)
        (prepNotice (chooseSep source) notice)) crlf = false) := by
  constructor
  · intro h
    rw [chooseSep_crlf h, prepNotice_crlf]
    exact crlfOnly_mkComment lang notice hnb hne hns
  · intro h hrn hrb hre hrs
    rw [chooseSep_lf h, prepNotice_nl]
    exact containsStr_crlf_false_of_not_mem
      (rNotMem_mkComment_nl lang notice hrn hrb hre hrs)

/-- Witness for the amended C8: a CRLF source yields a header whose
newlines are all `"\r\n"` pairs. -/
theorem header_newline_policy_witness :
    crlfOnly (mkComment goMarkers (chooseSep "a\r\nb".data)
      (prepNotice (chooseSep "a\r\nb".data) "Copyright notice".data)) = true :=
  (header_newline_policy goMarkers "a\r\nb".data "Copyright notice".data
    (by decide) (by decide) (by decide)).1 (by decide)

end Copyrighter
